import Mathlib

/-!
# A singly linked list of integers over an explicit heap

Shallow embedding of `src/list.c`.  Pointers are natural numbers, `0` is
`NULL`.  The heap is a finite table of cells; `malloc` hands out the address
just above the table and `free` empties a cell.  Whether a call of `malloc`
succeeds, and the junk word the fresh block is filled with, is read from a
list of outcomes carried by the memory state, so that every pattern of
allocation successes and failures can be named.

A result of `none` stands for "no defined result": the loop ran out of fuel,
the code touched a cell that is not allocated, or an `int` counter was
incremented past `INT_MAX` (signed overflow is undefined in C).  The C type
`int` is 32 bits wide.  Node values are only stored and compared, so they are
kept as `Int`; the counters `count` of `ll_size` and `index` of `ll_toarray`
are incremented with `int_incr`.  The counter `i` of `ll_fromarray` stays below
`len`, itself an `int`, so its increment cannot overflow.  The type `size_t` is
taken wide enough for `size * sizeof(int)` with `size` an `int`.
-/

namespace LL

/-! ## Memory -/

/-- Modelled from the spec: the declaration of `struct ll_node` lives in
`list.h`, which is not among the sources.  The spec's data model gives a node
one integer value and a link to the next node, or none (`0`). -/
structure ll_node where
  data : Int
  next : Nat
deriving DecidableEq

/-- Memory state: the cell at address `p > 0` is `cells[p-1]`, `none` when it
is not allocated; `allocs` lists the outcomes of the coming `malloc` calls
(`none`: the call fails, `some junk`: it succeeds and the block holds junk);
`calls` counts the `malloc` calls made so far. -/
structure Mem where
  cells : List (Option ll_node)
  allocs : List (Option Int)
  calls : Nat
deriving DecidableEq

/-- Load of the node at `p`; `none` when `p` is `NULL` or not allocated. -/
def Mem.read (m : Mem) (p : Nat) : Option ll_node :=
  if p = 0 then none else m.cells.getD (p - 1) none

/-- Store of a whole node at `p`; undefined when `p` is not allocated. -/
def Mem.write (m : Mem) (p : Nat) (n : ll_node) : Option Mem :=
  match m.read p with
  | none => none
  | some _ => some { m with cells := m.cells.set (p - 1) (some n) }

/-- The store `p->data = v`. -/
def Mem.set_data (m : Mem) (p : Nat) (v : Int) : Option Mem :=
  match m.read p with
  | none => none
  | some n => m.write p { n with data := v }

/-- The store `p->next = q`. -/
def Mem.set_next (m : Mem) (p : Nat) (q : Nat) : Option Mem :=
  match m.read p with
  | none => none
  | some n => m.write p { n with next := q }

/-- The call `free(p)`: a no-op on `NULL`, undefined on a cell that is not
allocated. -/
def Mem.free (m : Mem) (p : Nat) : Option Mem :=
  if p = 0 then some m else
  match m.read p with
  | none => none
  | some _ => some { m with cells := m.cells.set (p - 1) none }

/-- Outcome of the next `malloc` call; an exhausted outcome list means the
call fails. -/
def Mem.outcome (m : Mem) : Option Int × Mem :=
  match m.allocs with
  | [] => (none, { m with calls := m.calls + 1 })
  | o :: rest => (o, { m with allocs := rest, calls := m.calls + 1 })

/-- The call `malloc(sizeof(struct ll_node))`: `NULL` on failure, else the
address of a fresh cell with junk contents. -/
def Mem.malloc_node (m : Mem) : Nat × Mem :=
  match m.outcome with
  | (none, m1) => (0, m1)
  | (some junk, m1) =>
    (m1.cells.length + 1,
      { m1 with cells := m1.cells ++ [some { data := junk, next := junk.toNat }] })

/-- The call `malloc(size * sizeof(int))`: `NULL` on failure, else a fresh
array of `size` junk integers. -/
def Mem.malloc_ints (m : Mem) (size : Nat) : Option (List Int) × Mem :=
  match m.outcome with
  | (none, m1) => (none, m1)
  | (some junk, m1) => (some (List.replicate size junk), m1)

/-- Largest value of the C type `int`. -/
def INT_MAX : Int := 2147483647

/-- The increment `x++` of an `int`: at `INT_MAX` the signed overflow has no
defined result. -/
def int_incr (x : Int) : Option Int :=
  if x < INT_MAX then some (x + 1) else none

/-! ## The functions of `list.c` -/

/-- Source `ll_head`: the handle itself. -/
def ll_head (head : Nat) : Nat := head

/-- Loop of `ll_tail`: `while (current->next != NULL) current = current->next`. -/
def ll_tail_loop : Nat → Mem → Nat → Option Nat
  | 0, _, _ => none
  | fuel + 1, m, current =>
    match m.read current with
    | none => none
    | some n => if n.next ≠ 0 then ll_tail_loop fuel m n.next else some current

/-- Source `ll_tail`. -/
def ll_tail (fuel : Nat) (m : Mem) (head : Nat) : Option Nat :=
  if head = 0 then some 0 else ll_tail_loop fuel m head

/-- Loop of `ll_size`: `while (current != NULL) { count++; current = current->next; }`. -/
def ll_size_loop : Nat → Mem → Nat → Int → Option Int
  | 0, _, _, _ => none
  | fuel + 1, m, current, count =>
    if current ≠ 0 then
      match int_incr count with
      | none => none
      | some count1 =>
        match m.read current with
        | none => none
        | some n => ll_size_loop fuel m n.next count1
    else some count

/-- Source `ll_size`. -/
def ll_size (fuel : Nat) (m : Mem) (head : Nat) : Option Int :=
  if head = 0 then some 0 else ll_size_loop fuel m head 0

/-- Loop of `ll_find`. -/
def ll_find_loop : Nat → Mem → Int → Nat → Option Nat
  | 0, _, _, _ => none
  | fuel + 1, m, value, current =>
    if current ≠ 0 then
      match m.read current with
      | none => none
      | some n => if n.data = value then some current else ll_find_loop fuel m value n.next
    else some 0

/-- Source `ll_find`: the address of the first node holding `value`, or `NULL`. -/
def ll_find (fuel : Nat) (m : Mem) (head : Nat) (value : Int) : Option Nat :=
  if head = 0 then some 0 else ll_find_loop fuel m value head

/-- Loop of `ll_toarray`: `array[index] = current->data; current = current->next;
index++` for each node; a store outside the array is undefined. -/
def ll_toarray_loop : Nat → Mem → Nat → Int → List Int → Option (List Int)
  | 0, _, _, _, _ => none
  | fuel + 1, m, current, index, array =>
    if current ≠ 0 then
      match m.read current with
      | none => none
      | some n =>
        if 0 ≤ index ∧ index.toNat < array.length then
          match int_incr index with
          | none => none
          | some index1 =>
            ll_toarray_loop fuel m n.next index1 (array.set index.toNat n.data)
        else none
    else some array

/-- Source `ll_toarray`: the inner `none` is the `NULL` result. -/
def ll_toarray (fuel : Nat) (m : Mem) (head : Nat) : Option (Option (List Int) × Mem) :=
  if head = 0 then some (none, m) else
  match ll_size fuel m head with
  | none => none
  | some size =>
    match m.malloc_ints size.toNat with
    | (none, m1) => some (none, m1)
    | (some array, m1) =>
      match ll_toarray_loop fuel m1 head 0 array with
      | none => none
      | some a => some (some a, m1)

/-- Source `ll_create`. -/
def ll_create (m : Mem) (data : Int) : Option (Nat × Mem) :=
  match m.malloc_node with
  | (new_node, m1) =>
    if new_node = 0 then some (0, m1) else
    match m1.set_data new_node data with
    | none => none
    | some m2 =>
      match m2.set_next new_node 0 with
      | none => none
      | some m3 => some (new_node, m3)

/-- Loop of `ll_destroy`. -/
def ll_destroy_loop : Nat → Mem → Nat → Option Mem
  | 0, _, _ => none
  | fuel + 1, m, current =>
    if current ≠ 0 then
      match m.read current with
      | none => none
      | some n =>
        match m.free current with
        | none => none
        | some m1 => ll_destroy_loop fuel m1 n.next
    else some m

/-- Source `ll_destroy`. -/
def ll_destroy (fuel : Nat) (m : Mem) (head : Nat) : Option Mem :=
  if head = 0 then some m else ll_destroy_loop fuel m head

/-- Source `ll_append`. -/
def ll_append (fuel : Nat) (m : Mem) (head : Nat) (data : Int) : Option Mem :=
  if head = 0 then some m else
  match ll_create m data with
  | none => none
  | some (new_node, m1) =>
    if new_node = 0 then some m1 else
    match ll_tail fuel m1 head with
    | none => none
    | some tail => m1.set_next tail new_node

/-- Loop of `ll_fromarray`: `for (i = 1; i < len; i++)`; `k` bounds the number
of iterations, `fuel` is handed to `ll_destroy`. -/
def ll_fromarray_loop (fuel : Nat) (data : List Int) (len : Int) (head : Nat) :
    Nat → Mem → Nat → Nat → Option (Nat × Mem)
  | 0, _, _, _ => none
  | k + 1, m, tail, i =>
    if (i : Int) < len then
      match data[i]? with
      | none => none
      | some d =>
        match ll_create m d with
        | none => none
        | some (new_node, m1) =>
          if new_node = 0 then
            match ll_destroy fuel m1 head with
            | none => none
            | some m2 => some (0, m2)
          else
            match m1.set_next tail new_node with
            | none => none
            | some m2 => ll_fromarray_loop fuel data len head k m2 new_node (i + 1)
    else some (head, m)

/-- Source `ll_fromarray`; `data = none` is the `NULL` array. -/
def ll_fromarray (fuel : Nat) (m : Mem) (data : Option (List Int)) (len : Int) :
    Option (Nat × Mem) :=
  match data with
  | none => some (0, m)
  | some a =>
    if len ≤ 0 then some (0, m) else
    match a[0]? with
    | none => none
    | some d0 =>
      match ll_create m d0 with
      | none => none
      | some (head, m1) =>
        if head = 0 then some (0, m1) else
        if len = 1 then some (head, m1) else
        ll_fromarray_loop fuel a len head fuel m1 head 1

/-- Loop of `ll_remove`: looks one node ahead of `current`. -/
def ll_remove_loop (head : Nat) (value : Int) : Nat → Mem → Nat → Option (Nat × Mem)
  | 0, _, _ => none
  | fuel + 1, m, current =>
    match m.read current with
    | none => none
    | some c =>
      if c.next ≠ 0 then
        match m.read c.next with
        | none => none
        | some nx =>
          if nx.data = value then
            match m.set_next current nx.next with
            | none => none
            | some m1 =>
              match m1.free c.next with
              | none => none
              | some m2 => some (head, m2)
          else ll_remove_loop head value fuel m c.next
      else some (head, m)

/-- Source `ll_remove`: the (possibly new) head and the memory afterwards. -/
def ll_remove (fuel : Nat) (m : Mem) (head : Nat) (value : Int) : Option (Nat × Mem) :=
  if head = 0 then some (0, m) else
  match m.read head with
  | none => none
  | some h =>
    if h.data = value then
      match m.free head with
      | none => none
      | some m1 => some (h.next, m1)
    else ll_remove_loop head value fuel m head

/-! ## Well-formed lists -/

/-- Walk of the chain from `p`: true when the nodes met, with their values, are
exactly `l` and the last one has no successor. -/
def chainb (m : Mem) : Nat → List (Nat × Int) → Bool
  | p, [] => p == 0
  | p, (a, v) :: rest =>
    p != 0 && a == p &&
      match m.read p with
      | none => false
      | some n => n.data == v && chainb m n.next rest

/-- The list with head handle `p` is well formed and consists of the nodes
`l` (address and value), in traversal order. -/
def chain (m : Mem) (p : Nat) (l : List (Nat × Int)) : Prop := chainb m p l = true

instance (m : Mem) (p : Nat) (l : List (Nat × Int)) : Decidable (chain m p l) := by
  unfold chain; infer_instance

/-- The first `n` coming allocations all succeed. -/
def succeeds : List (Option Int) → Nat → Bool
  | _, 0 => true
  | some _ :: rest, n + 1 => succeeds rest n
  | _, _ + 1 => false

/-- A five-node heap holding the list 3, 1, 4, 1, 5 at head handle `1`. -/
def mem5 : Mem :=
  { cells := [some ⟨3, 2⟩, some ⟨1, 3⟩, some ⟨4, 4⟩, some ⟨1, 5⟩, some ⟨5, 0⟩],
    allocs := [some 77, none], calls := 0 }

/-- An empty heap whose next six allocations succeed. -/
def mem0 : Mem :=
  { cells := [], allocs := [some 9, some 8, some 7, some 6, some 5, some 4], calls := 0 }

/-- Address of the first node of `l` holding `v`, `0` when there is none. -/
def firstAddr (v : Int) : List (Nat × Int) → Nat
  | [] => 0
  | (a, w) :: rest => if w = v then a else firstAddr v rest

/-- The nodes of the list held by `mem5`, with their values. -/
def nodes5 : List (Nat × Int) := [(1, 3), (2, 1), (3, 4), (4, 1), (5, 5)]

/-- The heap of `mem5` when the next allocation fails. -/
def mem5fail : Mem := { mem5 with allocs := [none, some 3] }

/-- A heap of `n` nodes in a row, all holding 0: the node at address `i < n`
links to the node at `i + 1`, the node at address `n` has no successor; the
next `n + 1` allocations succeed. -/
def ramp_mem (n : Nat) : Mem :=
  { cells := (List.range n).map (fun i => some ⟨0, if i + 1 < n then i + 2 else 0⟩),
    allocs := List.replicate (n + 1) (some 0), calls := 0 }

/-- The nodes of the list held by `ramp_mem n` at head handle `1`. -/
def ramp_nodes (n : Nat) : List (Nat × Int) :=
  (List.range' 1 n).map (fun a => (a, 0))

/-- The heap of `mem5` when the next six allocations succeed. -/
def mem5rich : Mem := { mem5 with allocs := mem0.allocs }

/-- An empty heap whose third allocation fails. -/
def mem0fail : Mem := { cells := [], allocs := [some 9, some 8, none, some 7], calls := 0 }

/-- Well-formedness of the list with head handle `p`: following the links from
`p` reaches `NULL` after finitely many allocated nodes, and no node occurs
twice on the way (so no node is the successor of two nodes of the list). -/
def WellFormed (m : Mem) (p : Nat) : Prop :=
  ∃ l, chain m p l ∧ (l.map Prod.fst).Nodup

/-- The calls `ll_append(head, d)` for each `d` of a list of values, in order. -/
def append_all (fuel : Nat) (head : Nat) : List Int → Mem → Option Mem
  | [], m => some m
  | d :: ds, m =>
    match ll_append fuel m head d with
    | none => none
    | some m1 => append_all fuel head ds m1

/-- Building a list the slow way: `ll_create(A[0])` followed by `ll_append` of
`A[1]`, ..., `A[n-1]` in that order; undefined when there is no `A[0]`. -/
def create_then_append (fuel : Nat) (m : Mem) (A : List Int) (n : Nat) : Option (Nat × Mem) :=
  match A.take n with
  | [] => none
  | d0 :: ds =>
    match ll_create m d0 with
    | none => none
    | some (head, m1) =>
      match append_all fuel head ds m1 with
      | none => none
      | some m2 => some (head, m2)

/-! ## Memory lemmas -/

theorem read_zero (m : Mem) : m.read 0 = none := by simp [Mem.read]

theorem read_some_bound {m : Mem} {p : Nat} {n : ll_node} (h : m.read p = some n) :
    p ≠ 0 ∧ p ≤ m.cells.length := by
  unfold Mem.read at h
  split at h
  · cases h
  · rename_i hp
    refine ⟨hp, ?_⟩
    by_contra hlt
    rw [List.getD_eq_getElem?_getD, List.getElem?_eq_none (by omega)] at h
    cases h

theorem read_fresh (m : Mem) : m.read (m.cells.length + 1) = none := by
  cases h : m.read (m.cells.length + 1) with
  | none => rfl
  | some n => have := (read_some_bound h).2; omega

theorem write_ok {m : Mem} {p : Nat} {old : ll_node} (n : ll_node) (h : m.read p = some old) :
    ∃ m', m.write p n = some m' ∧ m'.read p = some n ∧
      (∀ q, q ≠ p → m'.read q = m.read q) ∧
      m'.allocs = m.allocs ∧ m'.calls = m.calls ∧ m'.cells.length = m.cells.length := by
  obtain ⟨hp, hle⟩ := read_some_bound h
  refine ⟨{ m with cells := m.cells.set (p - 1) (some n) }, by simp [Mem.write, h],
    ?_, ?_, rfl, rfl, by simp⟩
  · have : p - 1 < m.cells.length := by omega
    simp [Mem.read, hp, List.getD_eq_getElem?_getD, List.getElem?_set, this]
  · intro q hq
    by_cases hq0 : q = 0
    · simp [Mem.read, hq0]
    · have : p - 1 ≠ q - 1 := by omega
      simp [Mem.read, hq0, List.getD_eq_getElem?_getD, List.getElem?_set, this]

theorem set_next_ok {m : Mem} {p : Nat} {old : ll_node} (q : Nat) (h : m.read p = some old) :
    ∃ m', m.set_next p q = some m' ∧ m'.read p = some ⟨old.data, q⟩ ∧
      (∀ a, a ≠ p → m'.read a = m.read a) ∧
      m'.allocs = m.allocs ∧ m'.calls = m.calls ∧ m'.cells.length = m.cells.length := by
  obtain ⟨m', h1, h2⟩ := write_ok ⟨old.data, q⟩ h
  exact ⟨m', by simp [Mem.set_next, h, h1], h2⟩

theorem set_data_ok {m : Mem} {p : Nat} {old : ll_node} (v : Int) (h : m.read p = some old) :
    ∃ m', m.set_data p v = some m' ∧ m'.read p = some ⟨v, old.next⟩ ∧
      (∀ a, a ≠ p → m'.read a = m.read a) ∧
      m'.allocs = m.allocs ∧ m'.calls = m.calls ∧ m'.cells.length = m.cells.length := by
  obtain ⟨m', h1, h2⟩ := write_ok ⟨v, old.next⟩ h
  exact ⟨m', by simp [Mem.set_data, h, h1], h2⟩

theorem free_ok {m : Mem} {p : Nat} {old : ll_node} (h : m.read p = some old) :
    ∃ m', m.free p = some m' ∧ m'.read p = none ∧
      (∀ q, q ≠ p → m'.read q = m.read q) ∧
      m'.allocs = m.allocs ∧ m'.calls = m.calls ∧ m'.cells.length = m.cells.length := by
  obtain ⟨hp, hle⟩ := read_some_bound h
  refine ⟨{ m with cells := m.cells.set (p - 1) none }, by simp [Mem.free, h, hp],
    ?_, ?_, rfl, rfl, by simp⟩
  · have : p - 1 < m.cells.length := by omega
    simp [Mem.read, hp, List.getD_eq_getElem?_getD, List.getElem?_set, this]
  · intro q hq
    by_cases hq0 : q = 0
    · simp [Mem.read, hq0]
    · have : p - 1 ≠ q - 1 := by omega
      simp [Mem.read, hq0, List.getD_eq_getElem?_getD, List.getElem?_set, this]

theorem malloc_node_ok {m : Mem} {junk : Int} {rest : List (Option Int)}
    (h : m.allocs = some junk :: rest) :
    ∃ m', m.malloc_node = (m.cells.length + 1, m') ∧
      m'.read (m.cells.length + 1) = some ⟨junk, junk.toNat⟩ ∧
      (∀ q, q ≠ m.cells.length + 1 → m'.read q = m.read q) ∧
      m'.allocs = rest ∧ m'.calls = m.calls + 1 ∧ m'.cells.length = m.cells.length + 1 := by
  refine ⟨Mem.mk (m.cells ++ [some ⟨junk, junk.toNat⟩]) rest (m.calls + 1), by simp [Mem.malloc_node, Mem.outcome, h], ?_, ?_, rfl, rfl,
    by simp⟩
  · simp [Mem.read, List.getD_eq_getElem?_getD]
  · intro q hq
    by_cases hq0 : q = 0
    · simp [Mem.read, hq0]
    · simp only [Mem.read, hq0, if_false, List.getD_eq_getElem?_getD]
      by_cases hlt : q - 1 < m.cells.length
      · rw [List.getElem?_append_left hlt]
      · rw [List.getElem?_eq_none (by simp; omega), List.getElem?_eq_none (by omega)]

/-- A successful `ll_create` returns the fresh address, holding the value and
no successor, and touches no other cell. -/
theorem ll_create_ok {m : Mem} {junk : Int} {rest : List (Option Int)} (d : Int)
    (h : m.allocs = some junk :: rest) :
    ∃ m', ll_create m d = some (m.cells.length + 1, m') ∧
      m'.read (m.cells.length + 1) = some ⟨d, 0⟩ ∧
      (∀ q, q ≠ m.cells.length + 1 → m'.read q = m.read q) ∧
      m'.allocs = rest ∧ m'.calls = m.calls + 1 ∧ m'.cells.length = m.cells.length + 1 := by
  obtain ⟨m1, e1, r1, f1, a1, c1, l1⟩ := malloc_node_ok h
  obtain ⟨m2, e2, r2, f2, a2, c2, l2⟩ := set_data_ok d r1
  obtain ⟨m3, e3, r3, f3, a3, c3, l3⟩ := set_next_ok 0 r2
  refine ⟨m3, by simp [ll_create, e1, e2, e3], r3, ?_, by rw [a3, a2, a1],
    by rw [c3, c2, c1], by rw [l3, l2, l1]⟩
  intro q hq
  rw [f3 q hq, f2 q hq, f1 q hq]

/-- A failing `ll_create` returns `NULL` and leaves every cell as it was. -/
theorem ll_create_fail {m : Mem} (d : Int) (h : succeeds m.allocs 1 = false) :
    ∃ m', ll_create m d = some (0, m') ∧ m'.cells = m.cells ∧
      m'.allocs = m.allocs.tail ∧ m'.calls = m.calls + 1 := by
  rcases hm : m.allocs with _ | ⟨o, rest⟩
  · exact ⟨{ m with calls := m.calls + 1 },
      by simp [ll_create, Mem.malloc_node, Mem.outcome, hm], rfl, by simp [hm], rfl⟩
  · cases o with
    | none =>
      exact ⟨{ m with allocs := rest, calls := m.calls + 1 },
        by simp [ll_create, Mem.malloc_node, Mem.outcome, hm], rfl, by simp, rfl⟩
    | some j => simp [hm, succeeds] at h

/-! ## Chain lemmas -/

theorem chain_nil {m : Mem} {p : Nat} : chain m p [] ↔ p = 0 := by
  simp [chain, chainb]

theorem chain_cons {m : Mem} {p a : Nat} {v : Int} {rest : List (Nat × Int)} :
    chain m p ((a, v) :: rest) ↔
      p ≠ 0 ∧ a = p ∧ ∃ nx, m.read p = some ⟨v, nx⟩ ∧ chain m nx rest := by
  unfold chain
  rw [chainb]
  cases h : m.read p with
  | none => simp
  | some n =>
    obtain ⟨d, nx⟩ := n
    simp only [Bool.and_eq_true, bne_iff_ne, beq_iff_eq, ne_eq, Option.some.injEq,
      ll_node.mk.injEq]
    constructor
    · rintro ⟨⟨h1, h2⟩, h3, h4⟩
      exact ⟨h1, h2, nx, ⟨h3, rfl⟩, h4⟩
    · rintro ⟨h1, h2, nx', ⟨h3, h4⟩, h5⟩
      subst h4
      exact ⟨⟨h1, h2⟩, h3, h5⟩

theorem chain_null {m : Mem} {l : List (Nat × Int)} (h : chain m 0 l) : l = [] := by
  cases l with
  | nil => rfl
  | cons x rest => obtain ⟨a, v⟩ := x; exact absurd rfl (chain_cons.1 h).1

theorem chain_ne_nil {m : Mem} {p : Nat} {l : List (Nat × Int)} (h : chain m p l)
    (hp : p ≠ 0) : l ≠ [] := by
  rintro rfl
  exact hp (chain_nil.1 h)

/-- Every node of a well-formed list is allocated. -/
theorem chain_live {m : Mem} : ∀ {l : List (Nat × Int)} {p : Nat}, chain m p l →
    ∀ a ∈ l.map Prod.fst, ∃ n, m.read a = some n
  | [], _, _, a, ha => by simp at ha
  | (b, v) :: rest, p, h, a, ha => by
    obtain ⟨_, hb, nx, hr, hc⟩ := chain_cons.1 h
    simp only [List.map_cons, List.mem_cons] at ha
    rcases ha with rfl | ha
    · exact ⟨_, hb ▸ hr⟩
    · exact chain_live hc a ha

/-- A chain only depends on the cells of its own nodes. -/
theorem chain_congr {m m' : Mem} : ∀ {l : List (Nat × Int)} {p : Nat},
    (∀ a ∈ l.map Prod.fst, m'.read a = m.read a) → chain m p l → chain m' p l
  | [], _, _, h => chain_nil.2 (chain_nil.1 h)
  | (b, v) :: rest, p, hf, h => by
    obtain ⟨hp, hb, nx, hr, hc⟩ := chain_cons.1 h
    refine chain_cons.2 ⟨hp, hb, nx, ?_, chain_congr (fun a ha => hf a ?_) hc⟩
    · rw [hf p (by simp [hb]), hr]
    · simp only [List.map_cons, List.mem_cons]; exact Or.inr ha

/-- The nodes met from a handle are determined by the memory. -/
theorem chain_det {m : Mem} : ∀ {l l' : List (Nat × Int)} {p : Nat},
    chain m p l → chain m p l' → l = l'
  | [], l', p, h, h' => by
    rw [chain_nil.1 h] at h'; exact (chain_null h').symm
  | (b, v) :: rest, [], p, h, h' => by
    exact absurd (chain_nil.1 h') (chain_cons.1 h).1
  | (b, v) :: rest, (b', v') :: rest', p, h, h' => by
    obtain ⟨_, hb, nx, hr, hc⟩ := chain_cons.1 h
    obtain ⟨_, hb', nx', hr', hc'⟩ := chain_cons.1 h'
    rw [hr] at hr'
    simp only [Option.some.injEq, ll_node.mk.injEq] at hr'
    obtain ⟨hv, hn⟩ := hr'
    subst hn
    rw [hb, hb', hv, chain_det hc hc']

/-- A list of nodes determines the handle it hangs from. -/
theorem chain_head_eq {m m' : Mem} {p p' : Nat} {l : List (Nat × Int)} (h : chain m p l)
    (h' : chain m' p' l) : p = p' := by
  cases l with
  | nil => rw [chain_nil.1 h, chain_nil.1 h']
  | cons x rest =>
    obtain ⟨a, v⟩ := x
    rw [← (chain_cons.1 h).2.1, ← (chain_cons.1 h').2.1]

theorem chain_suffix {m : Mem} : ∀ {l1 l2 : List (Nat × Int)} {p : Nat},
    chain m p (l1 ++ l2) → ∃ q, chain m q l2
  | [], _, p, h => ⟨p, h⟩
  | (b, v) :: rest, l2, p, h => by
    obtain ⟨_, _, nx, _, hc⟩ := chain_cons.1 h
    exact chain_suffix hc

/-- No node occurs twice in a well-formed list. -/
theorem chain_nodup {m : Mem} : ∀ {l : List (Nat × Int)} {p : Nat},
    chain m p l → (l.map Prod.fst).Nodup
  | [], _, _ => by simp
  | (b, v) :: rest, p, h => by
    obtain ⟨hp, hb, nx, hr, hc⟩ := chain_cons.1 h
    rw [List.map_cons, List.nodup_cons]
    refine ⟨?_, chain_nodup hc⟩
    intro hmem
    obtain ⟨x, hx, hxb⟩ := List.mem_map.1 hmem
    obtain ⟨l1, l2, hsplit⟩ := List.append_of_mem hx
    obtain ⟨a, w⟩ := x
    simp only at hxb
    subst hxb
    rw [hsplit] at hc
    obtain ⟨q, hq⟩ := chain_suffix hc
    have hqa : a = q := (chain_cons.1 hq).2.1
    rw [← hqa, hb] at hq
    have := chain_det h hq
    have hlen := congrArg List.length this
    rw [hsplit] at hlen
    simp at hlen
    omega

theorem chain_cells {m m' : Mem} {p : Nat} {l : List (Nat × Int)} (hc : m'.cells = m.cells)
    (h : chain m p l) : chain m' p l :=
  chain_congr (fun a _ => by simp [Mem.read, hc]) h

/-! ## The read-only functions on a well-formed list -/

theorem int_incr_lt {x : Int} (h : x < INT_MAX) : int_incr x = some (x + 1) := by
  simp [int_incr, h]

theorem int_incr_ge {x : Int} (h : INT_MAX ≤ x) : int_incr x = none := by
  simp [int_incr, not_lt.2 h]

theorem ll_size_loop_chain {m : Mem} : ∀ (l : List (Nat × Int)) (p fuel : Nat) (c : Int),
    chain m p l → l.length < fuel → c + (l.length : Int) ≤ INT_MAX →
    ll_size_loop fuel m p c = some (c + l.length)
  | [], p, fuel, c, h, hf, _ => by
    obtain ⟨k, rfl⟩ := Nat.exists_eq_succ_of_ne_zero (Nat.ne_of_gt hf)
    simp [ll_size_loop, chain_nil.1 h]
  | (a, v) :: rest, p, fuel, c, h, hf, hmax => by
    obtain ⟨k, rfl⟩ := Nat.exists_eq_succ_of_ne_zero (Nat.ne_of_gt (Nat.zero_lt_of_lt hf))
    obtain ⟨hp, _, nx, hr, hc⟩ := chain_cons.1 h
    simp only [List.length_cons] at hf
    simp only [List.length_cons, Nat.cast_add, Nat.cast_one] at hmax
    have hinc : int_incr c = some (c + 1) := int_incr_lt (by omega)
    simp only [ll_size_loop, hp, ne_eq, not_false_eq_true, if_true, hr, hinc]
    rw [ll_size_loop_chain rest nx k (c + 1) hc (by omega) (by omega)]
    simp only [List.length_cons]
    push_cast
    congr 1
    ring

/-- On a well-formed list of at most `INT_MAX` nodes `ll_size` returns the
number of nodes. -/
theorem ll_size_chain {m : Mem} {p fuel : Nat} {l : List (Nat × Int)} (h : chain m p l)
    (hf : l.length < fuel) (hmax : (l.length : Int) ≤ INT_MAX) :
    ll_size fuel m p = some (l.length : Int) := by
  unfold ll_size
  split
  · rename_i hp
    subst hp
    rw [chain_null h]; rfl
  · rw [ll_size_loop_chain l p fuel 0 h hf (by omega), zero_add]

theorem ll_size_loop_overflow {m : Mem} : ∀ (l : List (Nat × Int)) (p : Nat) (c : Int)
    (fuel : Nat), chain m p l → c ≤ INT_MAX → INT_MAX < c + (l.length : Int) →
    ll_size_loop fuel m p c = none
  | [], _, c, _, _, h1, h2 => by
    simp only [List.length_nil, Nat.cast_zero, add_zero] at h2
    omega
  | _ :: _, _, _, 0, _, _, _ => rfl
  | (a, v) :: rest, p, c, fuel + 1, h, h1, h2 => by
    obtain ⟨hp, _, nx, hr, hc⟩ := chain_cons.1 h
    simp only [List.length_cons, Nat.cast_add, Nat.cast_one] at h2
    by_cases hlt : c < INT_MAX
    · simp only [ll_size_loop, hp, ne_eq, not_false_eq_true, if_true, hr, int_incr_lt hlt]
      exact ll_size_loop_overflow rest nx (c + 1) fuel hc (by omega) (by omega)
    · simp only [ll_size_loop, hp, ne_eq, not_false_eq_true, if_true,
        int_incr_ge (not_lt.1 hlt)]

/-- On a well-formed list of more than `INT_MAX` nodes the counter of `ll_size`
overflows: there is no defined result, whatever the fuel. -/
theorem ll_size_overflow {m : Mem} {p : Nat} {l : List (Nat × Int)} (h : chain m p l)
    (hbig : INT_MAX < (l.length : Int)) (fuel : Nat) : ll_size fuel m p = none := by
  have hp : p ≠ 0 := by
    rintro rfl
    rw [chain_null h] at hbig
    simp [INT_MAX] at hbig
  simp only [ll_size, hp, if_false]
  exact ll_size_loop_overflow l p 0 fuel h (by simp [INT_MAX]) (by omega)

theorem ll_size_loop_congr {m m' : Mem} : ∀ (l : List (Nat × Int)) (p fuel : Nat) (c : Int),
    chain m p l → chain m' p l → ll_size_loop fuel m p c = ll_size_loop fuel m' p c
  | _, _, 0, _, _, _ => rfl
  | [], p, fuel + 1, c, h, _ => by
    simp [ll_size_loop, chain_nil.1 h]
  | (a, v) :: rest, p, fuel + 1, c, h, h' => by
    obtain ⟨hp, _, nx, hr, hc⟩ := chain_cons.1 h
    obtain ⟨_, _, nx', hr', hc'⟩ := chain_cons.1 h'
    have hnx : nx = nx' := chain_head_eq hc hc'
    subst hnx
    simp only [ll_size_loop, hp, ne_eq, not_false_eq_true, if_true, hr, hr']
    cases int_incr c with
    | none => rfl
    | some c1 => exact ll_size_loop_congr rest nx fuel c1 hc hc'

/-- The result of `ll_size` only depends on the nodes of the list. -/
theorem ll_size_congr {m m' : Mem} {p : Nat} {l : List (Nat × Int)} (h : chain m p l)
    (h' : chain m' p l) (fuel : Nat) : ll_size fuel m p = ll_size fuel m' p := by
  unfold ll_size
  split
  · rfl
  · exact ll_size_loop_congr l p fuel 0 h h'

theorem ll_find_loop_chain {m : Mem} (v : Int) : ∀ (l : List (Nat × Int)) (p fuel : Nat),
    chain m p l → l.length < fuel → ll_find_loop fuel m v p = some (firstAddr v l)
  | [], p, fuel, h, hf => by
    obtain ⟨k, rfl⟩ := Nat.exists_eq_succ_of_ne_zero (Nat.ne_of_gt hf)
    simp [ll_find_loop, chain_nil.1 h, firstAddr]
  | (a, w) :: rest, p, fuel, h, hf => by
    obtain ⟨k, rfl⟩ := Nat.exists_eq_succ_of_ne_zero (Nat.ne_of_gt (Nat.zero_lt_of_lt hf))
    obtain ⟨hp, ha, nx, hr, hc⟩ := chain_cons.1 h
    simp only [List.length_cons] at hf
    simp only [ll_find_loop, hp, ne_eq, not_false_eq_true, if_true, hr, firstAddr]
    by_cases hw : w = v
    · simp [hw, ha]
    · simp only [hw, if_false]
      exact ll_find_loop_chain v rest nx k hc (by omega)

theorem ll_find_chain {m : Mem} {p fuel : Nat} {l : List (Nat × Int)} (v : Int)
    (h : chain m p l) (hf : l.length < fuel) : ll_find fuel m p v = some (firstAddr v l) := by
  unfold ll_find
  split
  · rename_i hp
    subst hp
    rw [chain_null h]; rfl
  · exact ll_find_loop_chain v l p fuel h hf

theorem firstAddr_eq_zero {m : Mem} (v : Int) : ∀ {l : List (Nat × Int)} {p : Nat},
    chain m p l → (firstAddr v l = 0 ↔ v ∉ l.map Prod.snd)
  | [], _, _ => by simp [firstAddr]
  | (a, w) :: rest, p, h => by
    obtain ⟨hp, ha, nx, hr, hc⟩ := chain_cons.1 h
    by_cases hw : w = v
    · subst hw; simp [firstAddr, ha, hp]
    · have := firstAddr_eq_zero v hc
      simp only [firstAddr, hw, if_false, this, List.map_cons, List.mem_cons, not_or]
      constructor
      · intro h1; exact ⟨fun e => hw e.symm, h1⟩
      · intro h1; exact h1.2

theorem firstAddr_split (v : Int) : ∀ {l : List (Nat × Int)}, v ∈ l.map Prod.snd →
    ∃ l1 l2, l = l1 ++ (firstAddr v l, v) :: l2 ∧ v ∉ l1.map Prod.snd
  | [], h => by simp at h
  | (a, w) :: rest, h => by
    by_cases hw : w = v
    · subst hw
      exact ⟨[], rest, by simp [firstAddr], by simp⟩
    · have hmem : v ∈ rest.map Prod.snd := by
        simp only [List.map_cons, List.mem_cons] at h
        rcases h with h | h
        · exact absurd h.symm hw
        · exact h
      obtain ⟨l1, l2, h1, h2⟩ := firstAddr_split v hmem
      refine ⟨(a, w) :: l1, l2, ?_, ?_⟩
      · simp only [firstAddr, hw, if_false, List.cons_append]
        rw [← h1]
      · simp only [List.map_cons, List.mem_cons, not_or]
        exact ⟨fun e => hw e.symm, h2⟩

theorem ll_tail_loop_chain {m : Mem} : ∀ (l : List (Nat × Int)) (p fuel : Nat) (hl : l ≠ []),
    chain m p l → l.length < fuel → ll_tail_loop fuel m p = some (l.getLast hl).1
  | [], _, _, hl, _, _ => absurd rfl hl
  | (a, v) :: rest, p, fuel, hl, h, hf => by
    obtain ⟨k, rfl⟩ := Nat.exists_eq_succ_of_ne_zero (Nat.ne_of_gt (Nat.zero_lt_of_lt hf))
    obtain ⟨hp, ha, nx, hr, hc⟩ := chain_cons.1 h
    simp only [List.length_cons] at hf
    simp only [ll_tail_loop, hr]
    by_cases hnx : nx = 0
    · subst hnx
      have := chain_null hc
      subst this
      simp [ha]
    · have hne : rest ≠ [] := chain_ne_nil hc hnx
      simp only [ne_eq, hnx, not_false_eq_true, if_true]
      rw [ll_tail_loop_chain rest nx k hne hc (by omega), List.getLast_cons hne]

/-- On a non-empty well-formed list `ll_tail` returns the last node. -/
theorem ll_tail_chain {m : Mem} {p fuel : Nat} {l : List (Nat × Int)} (hl : l ≠ [])
    (h : chain m p l) (hf : l.length < fuel) : ll_tail fuel m p = some (l.getLast hl).1 := by
  unfold ll_tail
  split
  · rename_i hp
    subst hp
    exact absurd (chain_null h) hl
  · exact ll_tail_loop_chain l p fuel hl h hf

theorem ll_toarray_loop_step {m : Mem} {p nx : Nat} {v : Int} (k : Nat) {i i1 : Int}
    {arr : List Int} (hp : p ≠ 0) (hr : m.read p = some ⟨v, nx⟩)
    (hidx : 0 ≤ i ∧ i.toNat < arr.length) (hinc : int_incr i = some i1) :
    ll_toarray_loop (k + 1) m p i arr = ll_toarray_loop k m nx i1 (arr.set i.toNat v) := by
  rw [ll_toarray_loop, if_pos hp, hr]
  simp only []
  rw [if_pos hidx, hinc]

theorem ll_toarray_loop_null {m : Mem} (k : Nat) (i : Int) (arr : List Int) :
    ll_toarray_loop (k + 1) m 0 i arr = some arr := by
  rw [ll_toarray_loop, if_neg (by simp)]

theorem ll_toarray_loop_chain {m : Mem} (l : List (Nat × Int)) :
    ∀ (p fuel : Nat) (done junk : List Int), chain m p l → l.length < fuel →
    junk.length = l.length → ((done.length + junk.length : Nat) : Int) ≤ INT_MAX →
    ll_toarray_loop fuel m p (done.length : Int) (done ++ junk) =
      some (done ++ l.map Prod.snd) := by
  induction l with
  | nil =>
    intro p fuel done junk h hf hj _
    obtain ⟨k, rfl⟩ := Nat.exists_eq_succ_of_ne_zero (Nat.ne_of_gt hf)
    have : junk = [] := List.length_eq_zero.1 hj
    rw [chain_nil.1 h, ll_toarray_loop_null, this]
    simp
  | cons x rest ih =>
    intro p fuel done junk h hf hj hmax
    obtain ⟨a, v⟩ := x
    obtain ⟨k, rfl⟩ := Nat.exists_eq_succ_of_ne_zero (Nat.ne_of_gt (Nat.zero_lt_of_lt hf))
    obtain ⟨hp, ha, nx, hr, hc⟩ := chain_cons.1 h
    simp only [List.length_cons] at hf hj
    cases junk with
    | nil => simp at hj
    | cons j junk' =>
      simp only [List.length_cons, Nat.add_right_cancel_iff] at hj
      simp only [List.length_cons, Nat.cast_add, Nat.cast_one] at hmax
      have hset : (done ++ j :: junk').set done.length v = (done ++ [v]) ++ junk' := by
        simp
      have hinc : int_incr (done.length : Int) = some (((done ++ [v]).length : Nat) : Int) := by
        rw [int_incr_lt (by omega)]
        simp
      have hidx : 0 ≤ (done.length : Int) ∧
          (done.length : Int).toNat < (done ++ j :: junk').length := by
        simp
      rw [ll_toarray_loop_step k hp hr hidx hinc, Int.toNat_ofNat, hset]
      rw [ih nx k (done ++ [v]) junk' hc (by omega) hj
        (by simp only [List.length_append, List.length_singleton, Nat.cast_add,
          Nat.cast_one]; omega)]
      simp

/-- On a non-empty well-formed list of at most `INT_MAX` nodes, when the array
allocation succeeds, `ll_toarray` returns the values in traversal order and
changes no cell. -/
theorem ll_toarray_chain {m : Mem} {p fuel : Nat} {l : List (Nat × Int)} {junk : Int}
    {rest : List (Option Int)} (h : chain m p l) (hp : p ≠ 0) (hf : l.length < fuel)
    (hmax : (l.length : Int) ≤ INT_MAX) (ha : m.allocs = some junk :: rest) :
    ll_toarray fuel m p =
      some (some (l.map Prod.snd), { m with allocs := rest, calls := m.calls + 1 }) := by
  have hm1 : chain { m with allocs := rest, calls := m.calls + 1 } p l :=
    chain_cells (m := m) rfl h
  have := ll_toarray_loop_chain l p fuel [] (List.replicate l.length junk) hm1 hf (by simp)
    (by simpa using hmax)
  simp only [List.length_nil, List.nil_append, Nat.cast_zero] at this
  simp [ll_toarray, hp, ll_size_chain h hf hmax, Mem.malloc_ints, Mem.outcome, ha, this]

/-- On a well-formed list of more than `INT_MAX` nodes `ll_toarray` has no
defined result: the count it starts with overflows. -/
theorem ll_toarray_overflow {m : Mem} {p : Nat} {l : List (Nat × Int)} (h : chain m p l)
    (hbig : INT_MAX < (l.length : Int)) (fuel : Nat) : ll_toarray fuel m p = none := by
  have hp : p ≠ 0 := by
    rintro rfl
    rw [chain_null h] at hbig
    simp [INT_MAX] at hbig
  simp [ll_toarray, hp, ll_size_overflow h hbig fuel]

/-! ## Removal -/

theorem ll_remove_loop_chain (head : Nat) (v : Int) :
    ∀ (rest : List (Nat × Int)) (c : Nat) (w : Int) (fuel : Nat) (m : Mem),
    chain m c ((c, w) :: rest) → w ≠ v → rest.length < fuel →
    ∃ m', ll_remove_loop head v fuel m c = some (head, m') ∧
      chain m' c ((c, w) :: rest.eraseP (fun x => decide (x.2 = v))) ∧
      (∀ a, a ∉ ((c, w) :: rest).map Prod.fst → m'.read a = m.read a) ∧
      (v ∉ rest.map Prod.snd → m' = m) ∧ m'.allocs = m.allocs ∧ m'.calls = m.calls
  | [], c, w, fuel, m, h, hw, hf => by
    obtain ⟨k, rfl⟩ := Nat.exists_eq_succ_of_ne_zero (Nat.ne_of_gt hf)
    obtain ⟨hp, _, nx, hr, hc⟩ := chain_cons.1 h
    have hnx := chain_nil.1 hc
    subst hnx
    exact ⟨m, by simp [ll_remove_loop, hr], by simpa using h, fun _ _ => rfl,
      fun _ => rfl, rfl, rfl⟩
  | (b, u) :: rest, c, w, fuel, m, h, hw, hf => by
    obtain ⟨k, rfl⟩ := Nat.exists_eq_succ_of_ne_zero (Nat.ne_of_gt (Nat.zero_lt_of_lt hf))
    simp only [List.length_cons] at hf
    have hnd := chain_nodup h
    obtain ⟨hp, _, nx, hr, hc⟩ := chain_cons.1 h
    obtain ⟨hnx, hb, nx2, hr2, hc2⟩ := chain_cons.1 hc
    subst hb
    simp only [List.map_cons, List.nodup_cons, List.mem_cons, not_or] at hnd
    obtain ⟨⟨hcb, hcr⟩, hbr, _⟩ := hnd
    by_cases hu : u = v
    · obtain ⟨m1, e1, r1, f1, a1, c1, _⟩ := set_next_ok nx2 hr
      have hr2' : m1.read b = some ⟨u, nx2⟩ := by rw [f1 b (Ne.symm hcb), hr2]
      obtain ⟨m2, e2, r2, f2, a2, c2, _⟩ := free_ok hr2'
      refine ⟨m2, by simp [ll_remove_loop, hr, hnx, hr2, hu, e1, e2], ?_, ?_, ?_,
        by rw [a2, a1], by rw [c2, c1]⟩
      · simp only [List.eraseP_cons, hu, decide_True, cond_true]
        refine chain_cons.2 ⟨hp, rfl, nx2, by rw [f2 c hcb, r1], ?_⟩
        refine chain_congr (fun a ha => ?_) hc2
        have hac : a ≠ c := fun e => hcr (e ▸ ha)
        have hab : a ≠ b := fun e => hbr (e ▸ ha)
        rw [f2 a hab, f1 a hac]
      · intro a ha
        simp only [List.map_cons, List.mem_cons, not_or] at ha
        rw [f2 a ha.2.1, f1 a ha.1]
      · intro hv
        simp [hu] at hv
    · obtain ⟨m', e, hch, hfr, hsame, ha, hcl⟩ :=
        ll_remove_loop_chain head v rest b u k m hc hu (by omega)
      refine ⟨m', by simp [ll_remove_loop, hr, hnx, hr2, hu, e], ?_, ?_, ?_, ha, hcl⟩
      · simp only [List.eraseP_cons, hu, decide_False, cond_false]
        refine chain_cons.2 ⟨hp, rfl, b, ?_, hch⟩
        rw [hfr c (by simp only [List.map_cons, List.mem_cons, not_or]; exact ⟨hcb, hcr⟩), hr]
      · intro a ha'
        simp only [List.map_cons, List.mem_cons, not_or] at ha'
        exact hfr a (by simp only [List.map_cons, List.mem_cons, not_or]; exact ha'.2)
      · intro hv
        simp only [List.map_cons, List.mem_cons, not_or] at hv
        exact hsame hv.2

/-- On a well-formed list `ll_remove` returns a well-formed list: the nodes of
the input without the first one holding `v`; cells outside the list are not
touched, and when no node holds `v` nothing changes at all. -/
theorem ll_remove_chain {m : Mem} {p fuel : Nat} {l : List (Nat × Int)} (v : Int)
    (h : chain m p l) (hf : l.length < fuel) :
    ∃ p' m', ll_remove fuel m p v = some (p', m') ∧
      chain m' p' (l.eraseP (fun x => decide (x.2 = v))) ∧
      (∀ a, a ∉ l.map Prod.fst → m'.read a = m.read a) ∧
      (v ∉ l.map Prod.snd → p' = p ∧ m' = m) ∧ m'.allocs = m.allocs ∧ m'.calls = m.calls := by
  cases l with
  | nil =>
    have hp := chain_nil.1 h
    subst hp
    exact ⟨0, m, by simp [ll_remove], by simpa using h, fun _ _ => rfl, fun _ => ⟨rfl, rfl⟩,
      rfl, rfl⟩
  | cons x rest =>
    obtain ⟨a, w⟩ := x
    have hnd := chain_nodup h
    obtain ⟨hp, ha, nx, hr, hc⟩ := chain_cons.1 h
    subst ha
    simp only [List.map_cons, List.nodup_cons] at hnd
    by_cases hw : w = v
    · obtain ⟨m1, e1, r1, f1, a1, c1, _⟩ := free_ok hr
      refine ⟨nx, m1, by simp [ll_remove, hp, hr, hw, e1], ?_, ?_, ?_, a1, c1⟩
      · simp only [List.eraseP_cons, hw, decide_True, cond_true]
        exact chain_congr (fun b hb => f1 b (fun e => hnd.1 (e ▸ hb))) hc
      · intro b hb
        simp only [List.map_cons, List.mem_cons, not_or] at hb
        exact f1 b hb.1
      · intro hv
        simp [hw] at hv
    · simp only [List.length_cons] at hf
      obtain ⟨m', e, hch, hfr, hsame, ha, hcl⟩ :=
        ll_remove_loop_chain a v rest a w fuel m h hw (by omega)
      refine ⟨a, m', by simp [ll_remove, hp, hr, hw, e], ?_, hfr, ?_, ha, hcl⟩
      · simpa only [List.eraseP_cons, hw, decide_False, cond_false] using hch
      · intro hv
        simp only [List.map_cons, List.mem_cons, not_or] at hv
        exact ⟨rfl, hsame hv.2⟩

theorem map_snd_eraseP (v : Int) : ∀ (l : List (Nat × Int)),
    (l.eraseP (fun x => decide (x.2 = v))).map Prod.snd = (l.map Prod.snd).erase v
  | [] => rfl
  | (a, w) :: rest => by
    by_cases hw : w = v
    · subst hw; simp
    · have hw' : (w == v) = false := by simpa using hw
      simp only [List.eraseP_cons, hw, decide_False, cond_false, List.map_cons,
        List.erase_cons, hw', map_snd_eraseP v rest]
      rfl

/-! ## Destruction -/

theorem ll_destroy_loop_chain : ∀ (l : List (Nat × Int)) (p fuel : Nat) (m : Mem),
    chain m p l → l.length < fuel →
    ∃ m', ll_destroy_loop fuel m p = some m' ∧
      (∀ a, a ∈ l.map Prod.fst → m'.read a = none) ∧
      (∀ a, a ∉ l.map Prod.fst → m'.read a = m.read a) ∧
      m'.allocs = m.allocs ∧ m'.calls = m.calls
  | [], p, fuel, m, h, hf => by
    obtain ⟨k, rfl⟩ := Nat.exists_eq_succ_of_ne_zero (Nat.ne_of_gt hf)
    exact ⟨m, by simp [ll_destroy_loop, chain_nil.1 h], by simp, fun _ _ => rfl, rfl, rfl⟩
  | (a, v) :: rest, p, fuel, m, h, hf => by
    obtain ⟨k, rfl⟩ := Nat.exists_eq_succ_of_ne_zero (Nat.ne_of_gt (Nat.zero_lt_of_lt hf))
    simp only [List.length_cons] at hf
    have hnd := chain_nodup h
    obtain ⟨hp, ha, nx, hr, hc⟩ := chain_cons.1 h
    subst ha
    simp only [List.map_cons, List.nodup_cons] at hnd
    obtain ⟨m1, e1, r1, f1, a1, c1, _⟩ := free_ok hr
    have hc1 : chain m1 nx rest :=
      chain_congr (fun b hb => f1 b (fun e => hnd.1 (e ▸ hb))) hc
    obtain ⟨m', e, hnone, hfr, ha', hcl⟩ := ll_destroy_loop_chain rest nx k m1 hc1 (by omega)
    refine ⟨m', by simp [ll_destroy_loop, hp, hr, e1, e], ?_, ?_, by rw [ha', a1],
      by rw [hcl, c1]⟩
    · intro b hb
      simp only [List.map_cons, List.mem_cons] at hb
      by_cases hbr : b ∈ rest.map Prod.fst
      · exact hnone b hbr
      · rcases hb with rfl | hb
        · rw [hfr b hbr, r1]
        · exact absurd hb hbr
    · intro b hb
      simp only [List.map_cons, List.mem_cons, not_or] at hb
      rw [hfr b hb.2, f1 b hb.1]

/-- On a well-formed list `ll_destroy` frees every node of the list and no
other cell. -/
theorem ll_destroy_chain {m : Mem} {p fuel : Nat} {l : List (Nat × Int)}
    (h : chain m p l) (hf : l.length < fuel) :
    ∃ m', ll_destroy fuel m p = some m' ∧
      (∀ a, a ∈ l.map Prod.fst → m'.read a = none) ∧
      (∀ a, a ∉ l.map Prod.fst → m'.read a = m.read a) ∧
      m'.allocs = m.allocs ∧ m'.calls = m.calls := by
  unfold ll_destroy
  split
  · rename_i hp
    subst hp
    rw [chain_null h]
    exact ⟨m, rfl, by simp, fun _ _ => rfl, rfl, rfl⟩
  · exact ll_destroy_loop_chain l p fuel m h hf

/-! ## Appending -/

/-- Linking a fresh node `q` behind the last node of a well-formed list gives
the list extended by `q`. -/
theorem chain_snoc {m m2 : Mem} {q : Nat} {v : Int} (hq0 : q ≠ 0) (hq : m.read q = none)
    (h2q : m2.read q = some ⟨v, 0⟩) :
    ∀ (l : List (Nat × Int)) (p : Nat) (hl : l ≠ []), chain m p l →
    (∀ n, m.read (l.getLast hl).1 = some n → m2.read (l.getLast hl).1 = some ⟨n.data, q⟩) →
    (∀ a, a ≠ q → a ≠ (l.getLast hl).1 → m2.read a = m.read a) →
    chain m2 p (l ++ [(q, v)])
  | [], _, hl, _, _, _ => absurd rfl hl
  | [(a, w)], p, _, h, ht, _ => by
    obtain ⟨hp, ha, nx, hr, hc⟩ := chain_cons.1 h
    subst ha
    have hnx := chain_nil.1 hc
    subst hnx
    simp only [List.getLast_singleton] at ht
    exact chain_cons.2 ⟨hp, rfl, q, ht _ hr, chain_cons.2 ⟨hq0, rfl, 0, h2q, chain_nil.2 rfl⟩⟩
  | (a, w) :: b :: rest, p, _, h, ht, ho => by
    have hnd := chain_nodup h
    obtain ⟨hp, ha, nx, hr, hc⟩ := chain_cons.1 h
    subst ha
    have hne : b :: rest ≠ [] := List.cons_ne_nil _ _
    rw [List.getLast_cons hne] at ht ho
    have hlast : (List.getLast (b :: rest) hne).1 ∈ (b :: rest).map Prod.fst :=
      List.mem_map.2 ⟨_, List.getLast_mem hne, rfl⟩
    rw [List.map_cons, List.nodup_cons] at hnd
    have ha1 : a ≠ (List.getLast (b :: rest) hne).1 := fun e => hnd.1 (e ▸ hlast)
    have ha2 : a ≠ q := fun e => by rw [e, hq] at hr; cases hr
    refine chain_cons.2 ⟨hp, rfl, nx, by rw [ho a ha2 ha1, hr], ?_⟩
    exact chain_snoc hq0 hq h2q (b :: rest) nx hne hc ht ho

/-- When the allocation succeeds, `ll_append` on a non-empty well-formed list
links one fresh node holding `v` behind the last node. -/
theorem ll_append_chain {m : Mem} {p fuel : Nat} {l : List (Nat × Int)} {junk : Int}
    {rest : List (Option Int)} (v : Int) (h : chain m p l) (hp : p ≠ 0)
    (hf : l.length < fuel) (ha : m.allocs = some junk :: rest) :
    ∃ m', ll_append fuel m p v = some m' ∧
      chain m' p (l ++ [(m.cells.length + 1, v)]) ∧
      (∀ a, a ∉ l.map Prod.fst → a ≠ m.cells.length + 1 → m'.read a = m.read a) ∧
      m'.allocs = rest ∧ m'.calls = m.calls + 1 := by
  have hl : l ≠ [] := chain_ne_nil h hp
  obtain ⟨m1, e1, r1, f1, a1, c1, _⟩ := ll_create_ok v ha
  have hfresh := read_fresh m
  have hc1 : chain m1 p l := by
    refine chain_congr (fun a ha' => f1 a ?_) h
    rintro rfl
    obtain ⟨n, hn⟩ := chain_live h _ ha'
    rw [hfresh] at hn; cases hn
  have hlast : (l.getLast hl).1 ∈ l.map Prod.fst :=
    List.mem_map.2 ⟨_, List.getLast_mem hl, rfl⟩
  obtain ⟨n, hn⟩ := chain_live hc1 _ hlast
  have htq : (l.getLast hl).1 ≠ m.cells.length + 1 := by
    intro e
    obtain ⟨n', hn'⟩ := chain_live h _ hlast
    rw [e, hfresh] at hn'; cases hn'
  obtain ⟨m2, e2, r2, f2, a2, c2, _⟩ := set_next_ok (m.cells.length + 1) hn
  refine ⟨m2, ?_, ?_, ?_, by rw [a2, a1], by rw [c2, c1]⟩
  · simp [ll_append, hp, e1, ll_tail_chain hl hc1 hf, e2]
  · refine chain_snoc (Nat.succ_ne_zero _) hfresh ?_ l p hl h ?_ ?_
    · rw [f2 _ (Ne.symm htq), r1]
    · intro n' hn'
      rw [f1 _ htq, hn'] at hn
      cases hn
      exact r2
    · intro a haq hat
      rw [f2 a hat, f1 a haq]
  · intro a hal haq
    have hat : a ≠ (l.getLast hl).1 := fun e => hal (e ▸ hlast)
    rw [f2 a hat, f1 a haq]

/-- When the allocation fails, `ll_append` changes no cell. -/
theorem ll_append_fail {m : Mem} {p fuel : Nat} (v : Int) (hp : p ≠ 0)
    (ha : succeeds m.allocs 1 = false) :
    ∃ m', ll_append fuel m p v = some m' ∧ m'.cells = m.cells ∧
      m'.allocs = m.allocs.tail ∧ m'.calls = m.calls + 1 := by
  obtain ⟨m1, e1, hc, hal, hcl⟩ := ll_create_fail v ha
  exact ⟨m1, by simp [ll_append, hp, e1], hc, hal, hcl⟩

/-! ## Building a list from an array -/

theorem succeeds_cons_some (j : Int) (rest : List (Option Int)) (n : Nat) :
    succeeds (some j :: rest) (n + 1) = succeeds rest n := rfl

theorem succeeds_succ_cases (al : List (Option Int)) (n : Nat) :
    (∃ j rest, al = some j :: rest ∧ succeeds al (n + 1) = succeeds rest n) ∨
      (succeeds al 1 = false ∧ succeeds al (n + 1) = false) := by
  rcases al with _ | ⟨o, rest⟩
  · exact Or.inr ⟨rfl, rfl⟩
  · cases o with
    | none => exact Or.inr ⟨rfl, rfl⟩
    | some j => exact Or.inl ⟨j, rest, rfl, rfl⟩

theorem succeeds_drop : ∀ {al : List (Option Int)} {n : Nat}, succeeds al (n + 1) = true →
    succeeds al n = true ∧ ∃ j rest, al.drop n = some j :: rest
  | [], _, h => by simp [succeeds] at h
  | none :: _, _, h => by simp [succeeds] at h
  | some j :: rest, 0, _ => ⟨rfl, j, rest, rfl⟩
  | some j :: rest, n + 1, h => by
    rw [succeeds_cons_some] at h
    obtain ⟨h1, h2⟩ := succeeds_drop h
    exact ⟨by rw [succeeds_cons_some]; exact h1, by simpa using h2⟩

theorem ll_fromarray_loop_chain (fuel : Nat) (A : List Int) (n head : Nat) (hn : n ≤ A.length)
    (hfuel : n < fuel) :
    ∀ (todo k : Nat) (m : Mem) (l : List (Nat × Int)) (hl : l ≠ []) (i : Nat),
    chain m head l → i = l.length → i + todo = n → todo < k →
    ∃ r m', ll_fromarray_loop fuel A (n : Int) head k m (l.getLast hl).1 i = some (r, m') ∧
      (succeeds m.allocs todo = true → r = head ∧ ∃ l2, chain m' head (l ++ l2) ∧
        l2.map Prod.snd = (A.drop i).take todo ∧
        (∀ a, a ∉ (l ++ l2).map Prod.fst → m'.read a = m.read a) ∧
        (∀ a, a ∈ l2.map Prod.fst → m.read a = none) ∧
        m'.allocs = m.allocs.drop todo ∧ m'.calls = m.calls + todo) ∧
      (succeeds m.allocs todo = false → r = 0 ∧
        (∀ a, m'.read a = if a ∈ l.map Prod.fst then none else m.read a) ∧
        m'.calls ≤ m.calls + todo)
  | 0, k, m, l, hl, i, h, hi, hin, hk => by
    obtain ⟨k', rfl⟩ := Nat.exists_eq_succ_of_ne_zero (Nat.ne_of_gt hk)
    have hlt : ¬ ((i : Int) < (n : Int)) := by omega
    refine ⟨head, m, by simp [ll_fromarray_loop, hlt], fun _ => ⟨rfl, [], ?_⟩, ?_⟩
    · simpa using h
    · intro hs; simp [succeeds] at hs
  | todo + 1, k, m, l, hl, i, h, hi, hin, hk => by
    obtain ⟨k', rfl⟩ := Nat.exists_eq_succ_of_ne_zero (Nat.ne_of_gt (Nat.zero_lt_of_lt hk))
    have hlt : (i : Int) < (n : Int) := by omega
    have hiA : i < A.length := by omega
    have hget : A[i]? = some A[i] := List.getElem?_eq_getElem hiA
    have hlast : (l.getLast hl).1 ∈ l.map Prod.fst :=
      List.mem_map.2 ⟨_, List.getLast_mem hl, rfl⟩
    rcases succeeds_succ_cases m.allocs todo with
      ⟨j, rest, hal, hs⟩ | ⟨hs1, hs⟩
    · -- the allocation succeeds: link the node and go on
      obtain ⟨m1, e1, r1, f1, a1, c1, _⟩ := ll_create_ok A[i] hal
      have hfresh := read_fresh m
      have hq0 : m.cells.length + 1 ≠ 0 := Nat.succ_ne_zero _
      have hlq : ∀ a, a ∈ l.map Prod.fst → a ≠ m.cells.length + 1 := by
        rintro a ha rfl
        obtain ⟨n', hn'⟩ := chain_live h _ ha
        rw [hfresh] at hn'; cases hn'
      obtain ⟨nt, hnt⟩ := chain_live h _ hlast
      have hnt1 : m1.read (l.getLast hl).1 = some nt := by rw [f1 _ (hlq _ hlast), hnt]
      obtain ⟨m2, e2, r2, f2, a2, c2, _⟩ := set_next_ok (m.cells.length + 1) hnt1
      have hc2 : chain m2 head (l ++ [(m.cells.length + 1, A[i])]) := by
        refine chain_snoc hq0 hfresh ?_ l head hl h ?_ ?_
        · rw [f2 _ (Ne.symm (hlq _ hlast)), r1]
        · intro n' hn'
          rw [hnt] at hn'
          cases hn'
          exact r2
        · intro a haq hat
          rw [f2 a hat, f1 a haq]
      have hl' : l ++ [(m.cells.length + 1, A[i])] ≠ [] := by simp
      have hlast' : ((l ++ [(m.cells.length + 1, A[i])]).getLast hl').1 = m.cells.length + 1 := by
        simp
      obtain ⟨r, m', e, hok, hbad⟩ :=
        ll_fromarray_loop_chain fuel A n head hn hfuel todo k' m2
          (l ++ [(m.cells.length + 1, A[i])]) hl' (i + 1) hc2 (by simp [hi]) (by omega)
          (by omega)
      rw [hlast'] at e
      refine ⟨r, m', ?_, ?_, ?_⟩
      · simp only [ll_fromarray_loop, hlt, if_true, hget, e1, hq0, if_false, e2, e]
      · intro hsucc
        rw [hs, ← a1, ← a2] at hsucc
        obtain ⟨hr, l2, hch, hvals, hfr, hnew, hall, hcl⟩ := hok hsucc
        rw [List.append_assoc] at hch hfr
        have hnd := chain_nodup hch
        refine ⟨hr, (m.cells.length + 1, A[i]) :: l2, hch, ?_, ?_, ?_, ?_, ?_⟩
        · rw [List.map_cons, hvals, List.drop_eq_getElem_cons hiA, List.take_succ_cons]
        · intro a ha
          have haq : a ≠ m.cells.length + 1 := by
            rintro rfl; exact ha (by simp)
          have hat : a ≠ (l.getLast hl).1 := by
            rintro rfl
            exact ha (by rw [List.map_append]; exact List.mem_append_left _ hlast)
          rw [hfr a ha, f2 a hat, f1 a haq]
        · intro a ha
          simp only [List.map_cons, List.mem_cons] at ha
          rcases ha with rfl | ha
          · exact hfresh
          · simp only [List.map_append, List.map_cons, List.map_nil,
              List.singleton_append] at hnd
            have hnd2 := (List.nodup_append.1 hnd).2
            have haq : a ≠ m.cells.length + 1 := by
              rintro rfl
              exact (List.nodup_cons.1 hnd2.1).1 ha
            have hat : a ≠ (l.getLast hl).1 := by
              rintro rfl
              exact hnd2.2 hlast (List.mem_cons_of_mem _ ha)
            rw [← f1 a haq, ← f2 a hat]
            exact hnew a ha
        · rw [hall, a2, a1, hal]; rfl
        · rw [hcl, c2, c1]; omega
      · intro hfail
        rw [hs, ← a1, ← a2] at hfail
        obtain ⟨hr, hreads, hcl⟩ := hbad hfail
        refine ⟨hr, fun a => ?_, by rw [c2, c1] at hcl; omega⟩
        rw [hreads a]
        by_cases hal' : a ∈ l.map Prod.fst
        · simp [hal']
        · by_cases haq : a = m.cells.length + 1
          · subst haq; simp [hfresh]
          · have hat : a ≠ (l.getLast hl).1 := fun e' => hal' (e' ▸ hlast)
            simp only [List.map_append, List.map_cons, List.map_nil, List.mem_append,
              List.mem_singleton, hal', haq, or_self, if_false]
            rw [f2 a hat, f1 a haq]
    · -- the allocation fails: the nodes built so far are destroyed
      obtain ⟨m1, e1, hcells, _, c1⟩ := ll_create_fail A[i] hs1
      have hc1 : chain m1 head l := chain_cells hcells h
      obtain ⟨m2, e2, hnone, hfr, _, c2⟩ :=
        @ll_destroy_chain m1 head fuel l hc1 (by omega)
      refine ⟨0, m2, ?_, ?_, ?_⟩
      · simp only [ll_fromarray_loop, hlt, if_true, hget, e1, e2]
      · intro hsucc; rw [hs] at hsucc; cases hsucc
      · intro _
        refine ⟨rfl, fun a => ?_, by rw [c2, c1]; omega⟩
        by_cases hal' : a ∈ l.map Prod.fst
        · simp [hal', hnone a hal']
        · simp only [hal', if_false]
          rw [hfr a hal']
          simp [Mem.read, hcells]

/-- Outcome of `ll_fromarray` on an array of at least `n ≥ 1` integers, for
every pattern of allocation outcomes: when the first `n` allocations succeed
it returns a well-formed list of `n` fresh nodes holding the first `n` values
in order; otherwise it returns `NULL` and every cell is as before the call. -/
theorem ll_fromarray_chain {fuel : Nat} {m : Mem} {A : List Int} {n : Nat} (h1 : 1 ≤ n)
    (hn : n ≤ A.length) (hfuel : n < fuel) :
    ∃ r m', ll_fromarray fuel m (some A) (n : Int) = some (r, m') ∧
      (succeeds m.allocs n = true → r ≠ 0 ∧ ∃ l, chain m' r l ∧ l.length = n ∧
        l.map Prod.snd = A.take n ∧
        (∀ a, a ∉ l.map Prod.fst → m'.read a = m.read a) ∧
        (∀ a, a ∈ l.map Prod.fst → m.read a = none) ∧
        m'.allocs = m.allocs.drop n ∧ m'.calls = m.calls + n) ∧
      (succeeds m.allocs n = false → r = 0 ∧ (∀ a, m'.read a = m.read a) ∧
        m'.calls ≤ m.calls + n) := by
  obtain ⟨t, rfl⟩ : ∃ t, n = t + 1 := ⟨n - 1, by omega⟩
  have hpos : ¬ (((t + 1 : Nat) : Int) ≤ 0) := by omega
  have h0 : 0 < A.length := by omega
  have hget : A[0]? = some A[0] := List.getElem?_eq_getElem h0
  rcases succeeds_succ_cases m.allocs t with ⟨j, rest, hal, hs⟩ | ⟨hs1, hs⟩
  · obtain ⟨m1, e1, r1, f1, a1, c1, _⟩ := ll_create_ok A[0] hal
    have hfresh := read_fresh m
    have hq0 : m.cells.length + 1 ≠ 0 := Nat.succ_ne_zero _
    have hc1 : chain m1 (m.cells.length + 1) [(m.cells.length + 1, A[0])] :=
      chain_cons.2 ⟨hq0, rfl, 0, r1, chain_nil.2 rfl⟩
    by_cases ht : t = 0
    · subst ht
      refine ⟨m.cells.length + 1, m1, ?_, ?_, ?_⟩
      · simp [ll_fromarray, hget, e1]
      · intro _
        refine ⟨hq0, [(m.cells.length + 1, A[0])], hc1, rfl, ?_, ?_, ?_, ?_, c1⟩
        · simp [List.take_one, List.head?_eq_getElem?, hget]
        · intro a ha
          exact f1 a (by simpa using ha)
        · intro a ha
          simp only [List.map_cons, List.map_nil, List.mem_singleton] at ha
          rw [ha]; exact hfresh
        · rw [a1, hal]; rfl
      · intro hfail; rw [hs] at hfail; simp [succeeds] at hfail
    · have hl0 : [(m.cells.length + 1, A[0])] ≠ [] := by simp
      obtain ⟨r, m', e, hok, hbad⟩ :=
        ll_fromarray_loop_chain fuel A (t + 1) (m.cells.length + 1) hn hfuel t fuel m1
          [(m.cells.length + 1, A[0])] hl0 1 hc1 rfl (by omega) (by omega)
      simp only [List.getLast_singleton] at e
      have hne1 : ¬ (((t + 1 : Nat) : Int) = 1) := by omega
      refine ⟨r, m', ?_, ?_, ?_⟩
      · simp only [ll_fromarray, hpos, if_false, hget, e1, hq0, hne1, e]
      · intro hsucc
        rw [hs, ← a1] at hsucc
        obtain ⟨hr, l2, hch, hvals, hfr, hnew, hall, hcl⟩ := hok hsucc
        have hnd := chain_nodup hch
        have hlen : l2.length = t := by
          have := congrArg List.length hvals
          simp only [List.length_map, List.length_take, List.length_drop] at this
          omega
        subst hr
        refine ⟨hq0, _, hch, by simp [hlen], ?_, ?_, ?_, ?_, ?_⟩
        · rw [List.map_append, hvals]
          simp only [List.map_cons, List.map_nil, List.singleton_append]
          rw [List.take_succ_cons.symm.trans (congrArg (List.take (t + 1))
            (List.drop_eq_getElem_cons h0).symm)]
          simp
        · intro a ha
          have haq : a ≠ m.cells.length + 1 := by
            rintro rfl; exact ha (by simp)
          rw [hfr a ha, f1 a haq]
        · intro a ha
          simp only [List.map_append, List.map_cons, List.map_nil, List.mem_append,
            List.mem_singleton] at ha
          rcases ha with ha | ha
          · rw [ha]; exact hfresh
          · have haq : a ≠ m.cells.length + 1 := by
              intro e'
              simp only [List.map_append, List.map_cons, List.map_nil,
                List.singleton_append, List.nodup_cons] at hnd
              exact hnd.1 (e' ▸ ha)
            rw [← f1 a haq]
            exact hnew a ha
        · rw [hall, a1, hal]; rfl
        · rw [hcl, c1]; omega
      · intro hfail
        rw [hs, ← a1] at hfail
        obtain ⟨hr, hreads, hcl⟩ := hbad hfail
        refine ⟨hr, fun a => ?_, by rw [c1] at hcl; omega⟩
        rw [hreads a]
        by_cases haq : a = m.cells.length + 1
        · subst haq; simp [hfresh]
        · simp only [List.map_cons, List.map_nil, List.mem_singleton, haq, if_false]
          exact f1 a haq
  · obtain ⟨m1, e1, hcells, _, c1⟩ := ll_create_fail A[0] hs1
    refine ⟨0, m1, ?_, ?_, ?_⟩
    · simp [ll_fromarray, hget, e1]
    · intro hsucc; rw [hs] at hsucc; cases hsucc
    · intro _
      exact ⟨rfl, fun a => by simp [Mem.read, hcells], by rw [c1]; omega⟩

theorem succeeds_one {al : List (Option Int)} (h : succeeds al 1 = true) :
    ∃ j rest, al = some j :: rest := by
  obtain ⟨_, j, rest, hd⟩ := succeeds_drop (n := 0) h
  exact ⟨j, rest, by simpa using hd⟩

/-- Each node listed by a chain holds its listed value. -/
theorem chain_read_mem {m : Mem} : ∀ {l : List (Nat × Int)} {p : Nat}, chain m p l →
    ∀ a w, (a, w) ∈ l → ∃ nx, m.read a = some ⟨w, nx⟩
  | [], _, _, a, w, ha => by simp at ha
  | (b, v) :: rest, p, h, a, w, ha => by
    obtain ⟨_, hb, nx, hr, hc⟩ := chain_cons.1 h
    simp only [List.mem_cons, Prod.mk.injEq] at ha
    rcases ha with ⟨rfl, rfl⟩ | ha
    · exact ⟨nx, hb ▸ hr⟩
    · exact chain_read_mem hc a w ha

theorem second_split (v : Int) : ∀ (l : List (Nat × Int)), 2 ≤ (l.map Prod.snd).count v →
    ∃ l1 a l2 l3,
      l = l1 ++ (a, v) :: l2 ++ (firstAddr v (l.eraseP (fun x => decide (x.2 = v))), v) :: l3 ∧
      v ∉ l1.map Prod.snd ∧ v ∉ l2.map Prod.snd
  | [], h => by simp at h
  | (a, w) :: rest, h => by
    by_cases hw : w = v
    · subst hw
      have hc : 1 ≤ (rest.map Prod.snd).count w := by
        simp only [List.map_cons, List.count_cons_self] at h
        omega
      obtain ⟨l2, l3, h1, h2⟩ := firstAddr_split w (List.one_le_count_iff.1 hc)
      refine ⟨[], a, l2, l3, ?_, by simp, h2⟩
      simp only [List.eraseP_cons, decide_True, cond_true, List.nil_append, List.cons_append]
      rw [← h1]
    · have hwv : (w == v) = false := by simpa using hw
      have hc : 2 ≤ (rest.map Prod.snd).count v := by
        simpa only [List.map_cons, List.count_cons, hwv, Bool.false_eq_true, if_false,
          Nat.add_zero] using h
      obtain ⟨l1, b, l2, l3, h1, h2, h3⟩ := second_split v rest hc
      refine ⟨(a, w) :: l1, b, l2, l3, ?_, ?_, h3⟩
      · simp only [List.eraseP_cons, hw, decide_False, cond_false, firstAddr, if_false,
          List.cons_append]
        rw [List.cons_inj_right]
        simpa using h1
      · simp only [List.map_cons, List.mem_cons, not_or]
        exact ⟨fun e => hw e.symm, h2⟩

/-! ## Long lists -/

theorem ramp_read {n j : Nat} (h : j < n) :
    (ramp_mem n).read (j + 1) = some ⟨0, if j + 1 < n then j + 2 else 0⟩ := by
  simp [Mem.read, ramp_mem, List.getD_eq_getElem?_getD, List.getElem?_map,
    List.getElem?_range h]

theorem ramp_chain_from (n : Nat) : ∀ (k j : Nat), j + k = n →
    chain (ramp_mem n) (if k = 0 then 0 else j + 1)
      ((List.range' (j + 1) k).map (fun a => (a, (0 : Int))))
  | 0, _, _ => chain_nil.2 (by simp)
  | k + 1, j, h => by
    have hrec := ramp_chain_from n k (j + 1) (by omega)
    have hnext : (if j + 1 < n then j + 2 else 0) = if k = 0 then 0 else j + 1 + 1 := by
      by_cases hk : k = 0
      · have : ¬ (j + 1 < n) := by omega
        simp [hk, this]
      · have : j + 1 < n := by omega
        simp [hk, this]
    rw [List.range'_succ, List.map_cons, if_neg (Nat.succ_ne_zero k)]
    exact chain_cons.2 ⟨Nat.succ_ne_zero j, rfl, _, ramp_read (by omega), hnext ▸ hrec⟩

/-- The heap `ramp_mem n` holds a well-formed list of `n` nodes at handle `1`. -/
theorem ramp_chain {n : Nat} (h : 1 ≤ n) : chain (ramp_mem n) 1 (ramp_nodes n) := by
  have := ramp_chain_from n n 0 (by omega)
  rw [if_neg (by omega)] at this
  exact this

theorem ramp_nodes_length (n : Nat) : (ramp_nodes n).length = n := by
  simp [ramp_nodes]

theorem ramp_values (n : Nat) : (ramp_nodes n).map Prod.snd = List.replicate n 0 := by
  rw [List.eq_replicate_iff]
  refine ⟨by simp [ramp_nodes], fun b hb => ?_⟩
  simp only [ramp_nodes, List.map_map, List.mem_map] at hb
  obtain ⟨a, _, rfl⟩ := hb
  rfl

theorem succeeds_replicate : ∀ (k j : Nat), j ≤ k →
    succeeds (List.replicate k (some 0)) j = true
  | _, 0, _ => by simp [succeeds]
  | 0, j + 1, h => by omega
  | k + 1, j + 1, h => by
    rw [List.replicate_succ, succeeds_cons_some]
    exact succeeds_replicate k j (by omega)

theorem ramp_succeeds {n j : Nat} (h : j ≤ n + 1) : succeeds (ramp_mem n).allocs j = true :=
  succeeds_replicate (n + 1) j h

theorem ramp_last {n : Nat} (h : 1 ≤ n) (hl : ramp_nodes n ≠ []) :
    ((ramp_nodes n).getLast hl).1 = n := by
  rw [List.getLast_eq_getElem]
  simp only [ramp_nodes, List.getElem_map, List.getElem_range', List.length_map,
    List.length_range']
  omega

theorem ramp_ne_nil {n : Nat} (h : 1 ≤ n) : ramp_nodes n ≠ [] := by
  intro e
  have := ramp_nodes_length n
  rw [e] at this
  simp at this
  omega

theorem ramp_zero_mem {n : Nat} (h : 1 ≤ n) : (0 : Int) ∈ (ramp_nodes n).map Prod.snd := by
  rw [ramp_values]
  exact List.mem_replicate.2 ⟨by omega, rfl⟩

/-! ## The claims -/

/-- C1: for an array `A` and a length `n` with `1 ≤ n ≤ |A|` (`n` a C `int`, so
at most `INT_MAX`), when the `n` node allocations succeed, `ll_fromarray(A, n)`
returns a non-empty well-formed list of exactly `n` nodes whose values in
traversal order are `A[0..n-1]`; `ll_size` of it is `n`, and when the array
allocation succeeds as well `ll_toarray` reads back exactly
`A[0], ..., A[n-1]`. -/
theorem C1_fromarray_traversal (fuel : Nat) (m : Mem) (A : List Int) (n : Nat)
    (h1 : 1 ≤ n) (hn : n ≤ A.length) (hmax : (n : Int) ≤ INT_MAX) (hfuel : n < fuel)
    (hal : succeeds m.allocs n = true) :
    ∃ head m' l, ll_fromarray fuel m (some A) (n : Int) = some (head, m') ∧ head ≠ 0 ∧
      chain m' head l ∧ l.length = n ∧ l.map Prod.snd = A.take n ∧
      ll_size fuel m' head = some (n : Int) ∧
      (succeeds m.allocs (n + 1) = true →
        (ll_toarray fuel m' head).map Prod.fst = some (some (A.take n))) := by
  obtain ⟨r, m', e, hok, _⟩ := ll_fromarray_chain (m := m) h1 hn hfuel
  obtain ⟨hr, l, hch, hlen, hvals, _, _, hall, _⟩ := hok hal
  have hmax' : (l.length : Int) ≤ INT_MAX := by rw [hlen]; exact hmax
  refine ⟨r, m', l, e, hr, hch, hlen, hvals, ?_, ?_⟩
  · rw [ll_size_chain hch (by omega) hmax', hlen]
  · intro hal1
    obtain ⟨_, j, rest, hd⟩ := succeeds_drop hal1
    rw [ll_toarray_chain hch hr (by omega) hmax' (hall.trans hd), Option.map_some', hvals]

/-- Witness of C1: the array 3, 1, 4, 1, 5 with length 5 on an empty heap. -/
theorem C1_fromarray_traversal_witness :
    ∃ head m' l, ll_fromarray 10 mem0 (some [3, 1, 4, 1, 5]) ((5 : Nat) : Int) =
        some (head, m') ∧ head ≠ 0 ∧
      chain m' head l ∧ l.length = 5 ∧ l.map Prod.snd = [3, 1, 4, 1, 5].take 5 ∧
      ll_size 10 m' head = some ((5 : Nat) : Int) ∧
      (succeeds mem0.allocs (5 + 1) = true →
        (ll_toarray 10 m' head).map Prod.fst = some (some ([3, 1, 4, 1, 5].take 5))) :=
  C1_fromarray_traversal 10 mem0 [3, 1, 4, 1, 5] 5 (by decide) (by decide) (by decide)
    (by decide) (by decide)

/-- C2: on a well-formed list `ll_remove(L, v)` returns a well-formed list made
of the nodes of `L` without the first one holding `v`; its values in traversal
order are those of `L` with only the first occurrence of `v` deleted. -/
theorem C2_remove_traversal (fuel : Nat) (m : Mem) (head : Nat) (l : List (Nat × Int))
    (v : Int) (h : chain m head l) (hf : l.length < fuel) :
    ∃ head' m' l', ll_remove fuel m head v = some (head', m') ∧ chain m' head' l' ∧
      l' = l.eraseP (fun x => decide (x.2 = v)) ∧
      l'.map Prod.snd = (l.map Prod.snd).erase v := by
  obtain ⟨p', m', e, hch, _⟩ := ll_remove_chain v h hf
  exact ⟨p', m', _, e, hch, rfl, map_snd_eraseP v l⟩

/-- Witness of C2: removing 1 from the list 3, 1, 4, 1, 5 leaves 3, 4, 1, 5. -/
theorem C2_remove_traversal_witness :
    ∃ head' m' l', ll_remove 10 mem5 1 1 = some (head', m') ∧ chain m' head' l' ∧
      l' = [(1, 3), (3, 4), (4, 1), (5, 5)] ∧ l'.map Prod.snd = [3, 4, 1, 5] :=
  C2_remove_traversal 10 mem5 1 nodes5 1 (by decide)
    (by decide)

/-- C3 as amended: on a non-empty well-formed list, when the allocation
succeeds, `ll_append(L, v)` leaves a well-formed list with the same nodes
followed by one new node, so the traversal order is the previous one followed
by `v`; and when `L` has fewer than `INT_MAX` nodes, `ll_size` is exactly one
more than before. -/
theorem C3_append_traversal_size (fuel : Nat) (m : Mem) (head : Nat) (l : List (Nat × Int))
    (v : Int) (h : chain m head l) (hp : head ≠ 0) (hf : l.length + 1 < fuel)
    (hal : succeeds m.allocs 1 = true) :
    ∃ m' q, ll_append fuel m head v = some m' ∧ chain m' head (l ++ [(q, v)]) ∧
      (l ++ [(q, v)]).map Prod.snd = l.map Prod.snd ++ [v] ∧
      ((l.length : Int) < INT_MAX →
        ∃ s, ll_size fuel m head = some s ∧ ll_size fuel m' head = some (s + 1)) := by
  obtain ⟨j, rest, ha⟩ := succeeds_one hal
  have hf' : l.length < fuel := by omega
  obtain ⟨m', e, hch, _⟩ := ll_append_chain v h hp hf' ha
  refine ⟨m', m.cells.length + 1, e, hch, by simp, fun hmax => ?_⟩
  refine ⟨(l.length : Int), ll_size_chain h hf' (by omega), ?_⟩
  rw [ll_size_chain hch (by simpa using hf) (by simp; omega)]
  simp

/-- Witness of C3: appending 9 to the list 3, 1, 4, 1, 5. -/
theorem C3_append_traversal_size_witness :
    ∃ m' q, ll_append 10 mem5 1 9 = some m' ∧ chain m' 1 (nodes5 ++ [(q, 9)]) ∧
      (nodes5 ++ [(q, 9)]).map Prod.snd = nodes5.map Prod.snd ++ [9] ∧
      ((nodes5.length : Int) < INT_MAX →
        ∃ s, ll_size 10 mem5 1 = some s ∧ ll_size 10 m' 1 = some (s + 1)) :=
  C3_append_traversal_size 10 mem5 1 nodes5 9 (by decide) (by decide) (by decide)
    (by decide)

/-- Counterexample to C3 as stated: on the well-formed list of `INT_MAX` nodes
`ll_size` returns `INT_MAX`; the append succeeds, and afterwards the counter
of `ll_size` overflows, so `ll_size` is not one more than before: it has no
defined result. -/
theorem C3_append_size_counterexample :
    chain (ramp_mem 2147483647) 1 (ramp_nodes 2147483647) ∧
      succeeds (ramp_mem 2147483647).allocs 1 = true ∧
      ll_size 2147483650 (ramp_mem 2147483647) 1 = some 2147483647 ∧
      ∃ m', ll_append 2147483650 (ramp_mem 2147483647) 1 0 = some m' ∧
        ∀ k, ll_size k m' 1 = none := by
  have hch : chain (ramp_mem 2147483647) 1 (ramp_nodes 2147483647) :=
    ramp_chain (by norm_num)
  have hlen := ramp_nodes_length 2147483647
  have hs : succeeds (ramp_mem 2147483647).allocs 1 = true := ramp_succeeds (by norm_num)
  obtain ⟨j, rest, ha⟩ := succeeds_one hs
  have hf : (ramp_nodes 2147483647).length < 2147483650 := by rw [hlen]; norm_num
  obtain ⟨m', e, hch', _⟩ := ll_append_chain 0 hch (by norm_num) hf ha
  refine ⟨hch, hs, ?_, m', e, fun k => ll_size_overflow hch' ?_ k⟩
  · rw [ll_size_chain hch hf (by rw [hlen]; norm_num [INT_MAX]), hlen]
    rfl
  · rw [List.length_append, hlen]
    norm_num [INT_MAX]

/-- C4: on a well-formed list `ll_find(L, v)` returns `NULL` exactly when no
node holds `v` (so also on the empty list); otherwise it returns a node of the
list that holds `v` and that no node holding `v` precedes. -/
theorem C4_find_first (fuel : Nat) (m : Mem) (head : Nat) (l : List (Nat × Int)) (v : Int)
    (h : chain m head l) (hf : l.length < fuel) :
    ∃ r, ll_find fuel m head v = some r ∧ (r = 0 ↔ v ∉ l.map Prod.snd) ∧
      (r ≠ 0 → (∃ nx, m.read r = some ⟨v, nx⟩) ∧
        ∃ l1 l2, l = l1 ++ (r, v) :: l2 ∧ v ∉ l1.map Prod.snd) := by
  refine ⟨firstAddr v l, ll_find_chain v h hf, firstAddr_eq_zero v h, fun hr => ?_⟩
  have hmem : v ∈ l.map Prod.snd := by
    by_contra hv
    exact hr ((firstAddr_eq_zero v h).2 hv)
  obtain ⟨l1, l2, hsplit, hl1⟩ := firstAddr_split v hmem
  have hm : (firstAddr v l, v) ∈ l1 ++ (firstAddr v l, v) :: l2 :=
    List.mem_append_right _ (List.mem_cons_self _ _)
  rw [← hsplit] at hm
  exact ⟨chain_read_mem h _ v hm, l1, l2, hsplit, hl1⟩

/-- Witness of C4: no node of the list 3, 1, 4, 1, 5 holds 9. -/
theorem C4_find_first_witness :
    ∃ r, ll_find 10 mem5 1 9 = some r ∧
      (r = 0 ↔ (9 : Int) ∉ nodes5.map Prod.snd) ∧
      (r ≠ 0 → (∃ nx, mem5.read r = some ⟨9, nx⟩) ∧
        ∃ l1 l2, nodes5 = l1 ++ (r, (9 : Int)) :: l2 ∧
          (9 : Int) ∉ l1.map Prod.snd) :=
  C4_find_first 10 mem5 1 nodes5 9 (by decide) (by decide)

/-- C5 as amended: on a well-formed list of at most `INT_MAX` nodes `ll_size`
returns a non-negative integer, the number of nodes; on the empty list it is 0
and `ll_toarray` returns `NULL`; on a non-empty list, when the array
allocation succeeds, the array returned by `ll_toarray` has exactly `ll_size`
elements. -/
theorem C5_size_eq_toarray_length (fuel : Nat) (m : Mem) (head : Nat)
    (l : List (Nat × Int)) (h : chain m head l) (hf : l.length < fuel)
    (hmax : (l.length : Int) ≤ INT_MAX) :
    ∃ s, ll_size fuel m head = some s ∧ 0 ≤ s ∧ s = (l.length : Int) ∧
      (head = 0 → s = 0 ∧ ll_toarray fuel m head = some (none, m)) ∧
      (head ≠ 0 → succeeds m.allocs 1 = true →
        ∃ a m', ll_toarray fuel m head = some (some a, m') ∧ (a.length : Int) = s) := by
  refine ⟨(l.length : Int), ll_size_chain h hf hmax, by omega, rfl, ?_, ?_⟩
  · rintro rfl
    rw [chain_null h]
    exact ⟨rfl, by simp [ll_toarray]⟩
  · intro hp hal
    obtain ⟨j, rest, ha⟩ := succeeds_one hal
    exact ⟨_, _, ll_toarray_chain h hp hf hmax ha, by simp⟩

/-- Witness of C5: the list 3, 1, 4, 1, 5. -/
theorem C5_size_eq_toarray_length_witness :
    ∃ s, ll_size 10 mem5 1 = some s ∧ 0 ≤ s ∧
      s = (nodes5.length : Int) ∧
      ((1 : Nat) = 0 → s = 0 ∧ ll_toarray 10 mem5 1 = some (none, mem5)) ∧
      ((1 : Nat) ≠ 0 → succeeds mem5.allocs 1 = true →
        ∃ a m', ll_toarray 10 mem5 1 = some (some a, m') ∧ (a.length : Int) = s) :=
  C5_size_eq_toarray_length 10 mem5 1 nodes5 (by decide) (by decide) (by decide)

/-- Counterexample to C5 as stated: on the well-formed list of `2^31` nodes the
`int` counter of `ll_size` is incremented past `INT_MAX`, so `ll_size` has no
defined result, whatever the fuel; it does not return the number of nodes. -/
theorem C5_size_counterexample :
    chain (ramp_mem 2147483648) 1 (ramp_nodes 2147483648) ∧
      (ramp_nodes 2147483648).length = 2147483648 ∧
      ∀ fuel, ll_size fuel (ramp_mem 2147483648) 1 = none := by
  have hch : chain (ramp_mem 2147483648) 1 (ramp_nodes 2147483648) :=
    ramp_chain (by norm_num)
  refine ⟨hch, ramp_nodes_length _, ll_size_overflow hch ?_⟩
  rw [ramp_nodes_length]
  norm_num [INT_MAX]

/-- C6: on a well-formed list none of whose nodes holds `v`, `ll_remove(L, v)`
returns the head handle it was given and the memory state is unchanged (no
node is freed, no link is changed); and on the empty list `ll_remove` returns
`NULL` for every value. -/
theorem C6_remove_absent_noop (fuel : Nat) (m : Mem) (head : Nat) (l : List (Nat × Int))
    (v : Int) (h : chain m head l) (hf : l.length < fuel) (hv : v ∉ l.map Prod.snd) :
    ll_remove fuel m head v = some (head, m) ∧
      ∀ (w : Int) (k : Nat) (m0 : Mem), ll_remove k m0 0 w = some (0, m0) := by
  obtain ⟨p', m', e, _, _, hsame, _⟩ := ll_remove_chain v h hf
  obtain ⟨rfl, rfl⟩ := hsame hv
  exact ⟨e, fun w k m0 => by simp [ll_remove]⟩

/-- Witness of C6: removing 9 from the list 3, 1, 4, 1, 5. -/
theorem C6_remove_absent_noop_witness :
    ll_remove 10 mem5 1 9 = some (1, mem5) ∧
      ∀ (w : Int) (k : Nat) (m0 : Mem), ll_remove k m0 0 w = some (0, m0) :=
  C6_remove_absent_noop 10 mem5 1 nodes5 9 (by decide)
    (by decide) (by decide)

/-- C7: on a well-formed list, `ll_find(ll_remove(L, v), v)` returns `NULL` if
and only if `v` occurs at most once in `L`; when `v` occurs at least twice it
returns the node that was the second occurrence of `v` in `L`. -/
theorem C7_find_after_remove (fuel : Nat) (m : Mem) (head : Nat) (l : List (Nat × Int))
    (v : Int) (h : chain m head l) (hf : l.length < fuel) :
    ∃ head' m' r, ll_remove fuel m head v = some (head', m') ∧
      ll_find fuel m' head' v = some r ∧
      (r = 0 ↔ (l.map Prod.snd).count v ≤ 1) ∧
      (2 ≤ (l.map Prod.snd).count v → ∃ l1 a l2 l3,
        l = l1 ++ (a, v) :: l2 ++ (r, v) :: l3 ∧
        v ∉ l1.map Prod.snd ∧ v ∉ l2.map Prod.snd) := by
  obtain ⟨p', m', e, hch, _⟩ := ll_remove_chain v h hf
  have hlen : (l.eraseP (fun x => decide (x.2 = v))).length < fuel :=
    Nat.lt_of_le_of_lt (List.length_eraseP_le _) hf
  refine ⟨p', m', _, e, ll_find_chain v hch hlen, ?_, second_split v l⟩
  rw [firstAddr_eq_zero v hch, map_snd_eraseP, ← List.count_eq_zero,
    List.count_erase_self]
  omega

/-- Witness of C7: after removing the first 1 from 3, 1, 4, 1, 5 the second 1
is found. -/
theorem C7_find_after_remove_witness :
    ∃ head' m' r, ll_remove 10 mem5 1 1 = some (head', m') ∧
      ll_find 10 m' head' 1 = some r ∧
      (r = 0 ↔ (nodes5.map Prod.snd).count (1 : Int) ≤ 1) ∧
      (2 ≤ (nodes5.map Prod.snd).count (1 : Int) →
        ∃ l1 a l2 l3,
          nodes5 = l1 ++ (a, (1 : Int)) :: l2 ++ (r, 1) :: l3 ∧
          (1 : Int) ∉ l1.map Prod.snd ∧ (1 : Int) ∉ l2.map Prod.snd) :=
  C7_find_after_remove 10 mem5 1 nodes5 1 (by decide)
    (by decide)

/-- C8: for an array of at least `n ≥ 1` integers and every pattern of
allocation outcomes, `ll_fromarray(A, n)` returns either `NULL` or a well-formed
list of exactly `n` nodes; and when one of the `n` node allocations fails it
returns `NULL` and every cell is as before the call, so each node allocated
earlier in the call has been released. -/
theorem C8_fromarray_all_or_nothing (fuel : Nat) (m : Mem) (A : List Int) (n : Nat)
    (h1 : 1 ≤ n) (hn : n ≤ A.length) (hfuel : n < fuel) :
    ∃ r m', ll_fromarray fuel m (some A) (n : Int) = some (r, m') ∧
      (r = 0 ∨ ∃ l, chain m' r l ∧ l.length = n) ∧
      (succeeds m.allocs n = false → r = 0 ∧ ∀ a, m'.read a = m.read a) := by
  obtain ⟨r, m', e, hok, hbad⟩ := ll_fromarray_chain (m := m) h1 hn hfuel
  refine ⟨r, m', e, ?_, fun hfail => ⟨(hbad hfail).1, (hbad hfail).2.1⟩⟩
  cases hs : succeeds m.allocs n with
  | false => exact Or.inl (hbad hs).1
  | true =>
    obtain ⟨_, l, hch, hlen, _⟩ := hok hs
    exact Or.inr ⟨l, hch, hlen⟩

/-- Witness of C8: the third of five node allocations fails. -/
theorem C8_fromarray_all_or_nothing_witness :
    ∃ r m', ll_fromarray 10 mem0fail (some [3, 1, 4, 1, 5]) ((5 : Nat) : Int) = some (r, m') ∧
      (r = 0 ∨ ∃ l, chain m' r l ∧ l.length = 5) ∧
      (succeeds mem0fail.allocs 5 = false → r = 0 ∧ ∀ a, m'.read a = mem0fail.read a) :=
  C8_fromarray_all_or_nothing 10 mem0fail [3, 1, 4, 1, 5] 5 (by decide) (by decide)
    (by decide)

/-- C9: on a non-empty well-formed list, if node creation fails inside
`ll_append(L, v)`, the call returns with every cell unchanged: the list has the
same nodes, values and links, and `ll_size` gives the same result as before
(the number of nodes, when that is at most `INT_MAX`). -/
theorem C9_append_alloc_failure (fuel : Nat) (m : Mem) (head : Nat) (l : List (Nat × Int))
    (v : Int) (h : chain m head l) (hp : head ≠ 0) (hf : l.length < fuel)
    (hal : succeeds m.allocs 1 = false) :
    ∃ m', ll_append fuel m head v = some m' ∧ m'.cells = m.cells ∧ chain m' head l ∧
      ll_size fuel m' head = ll_size fuel m head ∧
      ((l.length : Int) ≤ INT_MAX → ll_size fuel m head = some (l.length : Int)) := by
  obtain ⟨m', e, hc, _⟩ := @ll_append_fail m head fuel v hp hal
  have hch : chain m' head l := chain_cells hc h
  exact ⟨m', e, hc, hch, ll_size_congr hch h fuel, fun hmax => ll_size_chain h hf hmax⟩

/-- Witness of C9: appending to 3, 1, 4, 1, 5 when the allocation fails. -/
theorem C9_append_alloc_failure_witness :
    ∃ m', ll_append 10 mem5fail 1 9 = some m' ∧ m'.cells = mem5fail.cells ∧
      chain m' 1 nodes5 ∧ ll_size 10 m' 1 = ll_size 10 mem5fail 1 ∧
      ((nodes5.length : Int) ≤ INT_MAX → ll_size 10 mem5fail 1 = some (nodes5.length : Int)) :=
  C9_append_alloc_failure 10 mem5fail 1 nodes5 9
    (by decide) (by decide) (by decide) (by decide)

/-- C10: `ll_append` on the empty list (`NULL` handle) returns at once with the
memory state unchanged, for every value: no `malloc` call is made, no node is
created, and the list is still empty. -/
theorem C10_append_empty_noop (fuel : Nat) (m : Mem) (v : Int) :
    ll_append fuel m 0 v = some m ∧ chain m 0 [] ∧
      ∀ m', ll_append fuel m 0 v = some m' → m'.calls = m.calls ∧ m'.cells = m.cells := by
  have e : ll_append fuel m 0 v = some m := by simp [ll_append]
  refine ⟨e, chain_nil.2 rfl, fun m' h' => ?_⟩
  rw [e] at h'
  cases h'
  exact ⟨rfl, rfl⟩

/-! ## Further lemmas on chains -/

/-- The last node of a well-formed list has no successor. -/
theorem chain_last {m : Mem} : ∀ {l : List (Nat × Int)} {p : Nat} (hl : l ≠ []),
    chain m p l → m.read (l.getLast hl).1 = some ⟨(l.getLast hl).2, 0⟩
  | [], _, hl, _ => absurd rfl hl
  | [(a, v)], p, _, h => by
    obtain ⟨_, ha, nx, hr, hc⟩ := chain_cons.1 h
    have hnx := chain_nil.1 hc
    subst hnx
    subst ha
    simpa using hr
  | (a, v) :: b :: rest, p, _, h => by
    obtain ⟨_, _, nx, _, hc⟩ := chain_cons.1 h
    rw [List.getLast_cons (List.cons_ne_nil b rest)]
    exact chain_last (List.cons_ne_nil b rest) hc

/-! ## The claims, continued -/

/-- C11: for every input array, absent or not, and every length `len ≤ 0`,
`ll_fromarray` returns `NULL` with the memory state unchanged (no `malloc`
call is made); on that result `ll_toarray` returns `NULL` and `ll_size`
returns 0. -/
theorem C11_fromarray_nonpositive_length (fuel : Nat) (m : Mem) (data : Option (List Int))
    (len : Int) (h : len ≤ 0) :
    ll_fromarray fuel m data len = some (0, m) ∧
      ll_toarray fuel m 0 = some (none, m) ∧ ll_size fuel m 0 = some 0 := by
  refine ⟨?_, by simp [ll_toarray], by simp [ll_size]⟩
  cases data with
  | none => rfl
  | some a => simp [ll_fromarray, h]

/-- Witness of C11: the empty array with length 0. -/
theorem C11_fromarray_nonpositive_length_witness :
    ll_fromarray 10 mem0 (some []) 0 = some (0, mem0) ∧
      ll_toarray 10 mem0 0 = some (none, mem0) ∧ ll_size 10 mem0 0 = some 0 :=
  C11_fromarray_nonpositive_length 10 mem0 (some []) 0 (by decide)

/-- C12 as amended: on a well-formed list of at most `INT_MAX` nodes, when the
allocation succeeds, `ll_toarray` returns `NULL` if and only if the list is
empty; otherwise it returns an array with one entry per node, the entry at
index `i` being the value held by the `i`-th node in traversal order; no cell
of the memory is changed and the list is as before. -/
theorem C12_toarray_values (fuel : Nat) (m : Mem) (head : Nat) (l : List (Nat × Int))
    (h : chain m head l) (hf : l.length < fuel) (hmax : (l.length : Int) ≤ INT_MAX)
    (hal : succeeds m.allocs 1 = true) :
    ∃ arr m', ll_toarray fuel m head = some (arr, m') ∧ (arr = none ↔ head = 0) ∧
      (head = 0 ↔ l = []) ∧ m'.cells = m.cells ∧ chain m' head l ∧
      (head ≠ 0 → ∃ a, arr = some a ∧ (a.length : Int) = l.length ∧
        ll_size fuel m head = some (a.length : Int) ∧
        ∀ (i p : Nat) (v : Int), l[i]? = some (p, v) →
          a[i]? = some v ∧ ∃ nx, m.read p = some ⟨v, nx⟩) := by
  have hempty : head = 0 ↔ l = [] :=
    ⟨fun e => chain_null (e ▸ h), fun e => chain_nil.1 (e ▸ h)⟩
  by_cases hp : head = 0
  · subst hp
    exact ⟨none, m, by simp [ll_toarray], by simp, hempty, rfl, h, fun hne => absurd rfl hne⟩
  · obtain ⟨j, rest, ha⟩ := succeeds_one hal
    refine ⟨some (l.map Prod.snd), _, ll_toarray_chain h hp hf hmax ha, by simp [hp], hempty,
      rfl, chain_cells (m := m) rfl h, fun _ => ⟨_, rfl, by simp, ?_, ?_⟩⟩
    · rw [ll_size_chain h hf hmax]; simp
    · intro i p v hi
      refine ⟨by simp [List.getElem?_map, hi], chain_read_mem h p v ?_⟩
      exact List.getElem?_mem hi

/-- Witness of C12: the list 3, 1, 4, 1, 5. -/
theorem C12_toarray_values_witness :
    ∃ arr m', ll_toarray 10 mem5 1 = some (arr, m') ∧ (arr = none ↔ (1 : Nat) = 0) ∧
      ((1 : Nat) = 0 ↔ nodes5 = []) ∧ m'.cells = mem5.cells ∧ chain m' 1 nodes5 ∧
      ((1 : Nat) ≠ 0 → ∃ a, arr = some a ∧ (a.length : Int) = nodes5.length ∧
        ll_size 10 mem5 1 = some (a.length : Int) ∧
        ∀ (i p : Nat) (v : Int), nodes5[i]? = some (p, v) →
          a[i]? = some v ∧ ∃ nx, mem5.read p = some ⟨v, nx⟩) :=
  C12_toarray_values 10 mem5 1 nodes5 (by decide) (by decide) (by decide) (by decide)

/-- Counterexample to C12 as stated: on the well-formed list of `2^32 + 1` nodes,
with the allocation succeeding, the `int` count that `ll_toarray` takes from
`ll_size` has overflowed, so `ll_toarray` has no defined result, whatever the
fuel; it does not return an array with one entry per node. -/
theorem C12_toarray_counterexample :
    chain (ramp_mem 4294967297) 1 (ramp_nodes 4294967297) ∧
      succeeds (ramp_mem 4294967297).allocs 1 = true ∧
      ∀ fuel, ll_toarray fuel (ramp_mem 4294967297) 1 = none := by
  have hch : chain (ramp_mem 4294967297) 1 (ramp_nodes 4294967297) :=
    ramp_chain (by norm_num)
  refine ⟨hch, ramp_succeeds (by norm_num), ll_toarray_overflow hch ?_⟩
  rw [ramp_nodes_length]
  norm_num [INT_MAX]

/-- C13 as amended: on a well-formed list `ll_tail` returns `NULL` if and only
if the list is empty; on a non-empty list it returns the last node in
traversal order (index `length - 1`), which is a node of the list and has no
successor; when the list has at most `INT_MAX` nodes that index is
`ll_size - 1`.  The function only reads the memory. -/
theorem C13_tail_last (fuel : Nat) (m : Mem) (head : Nat) (l : List (Nat × Int))
    (h : chain m head l) (hf : l.length < fuel) :
    ∃ r, ll_tail fuel m head = some r ∧ (r = 0 ↔ head = 0) ∧ (head = 0 ↔ l = []) ∧
      (head ≠ 0 → ∃ v, l[l.length - 1]? = some (r, v) ∧ r ∈ l.map Prod.fst ∧
        m.read r = some ⟨v, 0⟩ ∧
        ((l.length : Int) ≤ INT_MAX →
          ll_size fuel m head = some (((l.length - 1 : Nat) : Int) + 1))) := by
  have hempty : head = 0 ↔ l = [] :=
    ⟨fun e => chain_null (e ▸ h), fun e => chain_nil.1 (e ▸ h)⟩
  by_cases hp : head = 0
  · subst hp
    exact ⟨0, by simp [ll_tail], by simp, hempty, fun hne => absurd rfl hne⟩
  · have hl : l ≠ [] := chain_ne_nil h hp
    have hmem : (l.getLast hl).1 ∈ l.map Prod.fst :=
      List.mem_map.2 ⟨_, List.getLast_mem hl, rfl⟩
    have hr0 : (l.getLast hl).1 ≠ 0 := by
      obtain ⟨n, hn⟩ := chain_live h _ hmem
      exact (read_some_bound hn).1
    have hpos : 0 < l.length := List.length_pos.2 hl
    refine ⟨(l.getLast hl).1, ll_tail_chain hl h hf, by simp [hp, hr0], hempty, fun _ =>
      ⟨(l.getLast hl).2, ?_, hmem, chain_last hl h, fun hmax => ?_⟩⟩
    · rw [List.getLast_eq_getElem, List.getElem?_eq_getElem (by omega)]
    · rw [ll_size_chain h hf hmax]
      congr 1
      omega

/-- Witness of C13: the last node of the list 3, 1, 4, 1, 5. -/
theorem C13_tail_last_witness :
    ∃ r, ll_tail 10 mem5 1 = some r ∧ (r = 0 ↔ (1 : Nat) = 0) ∧ ((1 : Nat) = 0 ↔ nodes5 = []) ∧
      ((1 : Nat) ≠ 0 → ∃ v, nodes5[nodes5.length - 1]? = some (r, v) ∧
        r ∈ nodes5.map Prod.fst ∧ mem5.read r = some ⟨v, 0⟩ ∧
        ((nodes5.length : Int) ≤ INT_MAX →
          ll_size 10 mem5 1 = some (((nodes5.length - 1 : Nat) : Int) + 1))) :=
  C13_tail_last 10 mem5 1 nodes5 (by decide) (by decide)

/-- Counterexample to C13 as stated: on the well-formed list of `2^31` nodes
`ll_tail` returns the last node, at address `2^31`, but `ll_size` has no
defined result, whatever the fuel, so the index `ll_size(L) - 1` named by the
claim does not exist. -/
theorem C13_tail_index_counterexample :
    chain (ramp_mem 2147483648) 1 (ramp_nodes 2147483648) ∧
      ll_tail 2147483650 (ramp_mem 2147483648) 1 = some 2147483648 ∧
      ∀ k, ll_size k (ramp_mem 2147483648) 1 = none := by
  have hch : chain (ramp_mem 2147483648) 1 (ramp_nodes 2147483648) :=
    ramp_chain (by norm_num)
  have hl : ramp_nodes 2147483648 ≠ [] := ramp_ne_nil (by norm_num)
  refine ⟨hch, ?_, ll_size_overflow hch ?_⟩
  · rw [ll_tail_chain hl hch (by rw [ramp_nodes_length]; norm_num),
      ramp_last (by norm_num) hl]
  · rw [ramp_nodes_length]
    norm_num [INT_MAX]

/-! ## Which node a removal frees -/

theorem ll_remove_loop_freed (head : Nat) (v : Int) :
    ∀ (rest : List (Nat × Int)) (c : Nat) (w : Int) (fuel : Nat) (m : Mem),
    chain m c ((c, w) :: rest) → w ≠ v → rest.length < fuel → v ∈ rest.map Prod.snd →
    ∃ m', ll_remove_loop head v fuel m c = some (head, m') ∧
      m'.read (firstAddr v rest) = none
  | [], _, _, _, _, _, _, _, hv => by simp at hv
  | (b, u) :: rest, c, w, fuel, m, h, hw, hf, hv => by
    obtain ⟨k, rfl⟩ := Nat.exists_eq_succ_of_ne_zero (Nat.ne_of_gt (Nat.zero_lt_of_lt hf))
    simp only [List.length_cons] at hf
    have hnd := chain_nodup h
    obtain ⟨hp, _, nx, hr, hc⟩ := chain_cons.1 h
    obtain ⟨hnx, hb, nx2, hr2, hc2⟩ := chain_cons.1 hc
    subst hb
    simp only [List.map_cons, List.nodup_cons, List.mem_cons, not_or] at hnd
    obtain ⟨⟨hcb, _⟩, _, _⟩ := hnd
    by_cases hu : u = v
    · obtain ⟨m1, e1, r1, f1, _⟩ := set_next_ok nx2 hr
      have hr2' : m1.read b = some ⟨u, nx2⟩ := by rw [f1 b (Ne.symm hcb), hr2]
      obtain ⟨m2, e2, r2, _⟩ := free_ok hr2'
      exact ⟨m2, by simp [ll_remove_loop, hr, hnx, hr2, hu, e1, e2], by simp [firstAddr, hu, r2]⟩
    · have hv' : v ∈ rest.map Prod.snd := by
        simp only [List.map_cons, List.mem_cons] at hv
        rcases hv with hv | hv
        · exact absurd hv.symm hu
        · exact hv
      obtain ⟨m', e, hnone⟩ := ll_remove_loop_freed head v rest b u k m hc hu (by omega) hv'
      exact ⟨m', by simp [ll_remove_loop, hr, hnx, hr2, hu, e], by simp [firstAddr, hu, hnone]⟩

/-- When some node holds `v`, the cell of the first such node is free after
`ll_remove`. -/
theorem ll_remove_freed {m : Mem} {p fuel : Nat} {l : List (Nat × Int)} (v : Int)
    (h : chain m p l) (hf : l.length < fuel) (hv : v ∈ l.map Prod.snd) :
    ∃ p' m', ll_remove fuel m p v = some (p', m') ∧ m'.read (firstAddr v l) = none := by
  cases l with
  | nil => simp at hv
  | cons x rest =>
    obtain ⟨a, w⟩ := x
    obtain ⟨hp, ha, nx, hr, hc⟩ := chain_cons.1 h
    subst ha
    by_cases hw : w = v
    · obtain ⟨m1, e1, r1, _⟩ := free_ok hr
      exact ⟨nx, m1, by simp [ll_remove, hp, hr, hw, e1], by simp [firstAddr, hw, r1]⟩
    · simp only [List.length_cons] at hf
      have hv' : v ∈ rest.map Prod.snd := by
        simp only [List.map_cons, List.mem_cons] at hv
        rcases hv with hv | hv
        · exact absurd hv.symm hw
        · exact hv
      obtain ⟨m', e, hnone⟩ := ll_remove_loop_freed a v rest a w fuel m h hw (by omega) hv'
      exact ⟨a, m', by simp [ll_remove, hp, hr, hw, e], by simp [firstAddr, hw, hnone]⟩

theorem firstAddr_mem (v : Int) : ∀ {l : List (Nat × Int)}, v ∈ l.map Prod.snd →
    firstAddr v l ∈ l.map Prod.fst
  | [], h => by simp at h
  | (a, w) :: rest, h => by
    by_cases hw : w = v
    · simp [firstAddr, hw]
    · have hv' : v ∈ rest.map Prod.snd := by
        simp only [List.map_cons, List.mem_cons] at h
        rcases h with h | h
        · exact absurd h.symm hw
        · exact h
      simp only [firstAddr, hw, if_false, List.map_cons, List.mem_cons]
      exact Or.inr (firstAddr_mem v hv')

theorem mem_eraseP_addr (v : Int) (b : Nat) : ∀ {l : List (Nat × Int)},
    b ∈ l.map Prod.fst → b ≠ firstAddr v l →
    b ∈ (l.eraseP (fun x => decide (x.2 = v))).map Prod.fst
  | [], h, _ => by simp at h
  | (a, w) :: rest, h, hb => by
    simp only [List.map_cons, List.mem_cons] at h
    by_cases hw : w = v
    · simp only [firstAddr, hw, if_true] at hb
      simp only [List.eraseP_cons, hw, decide_True, cond_true]
      rcases h with h | h
      · exact absurd h hb
      · exact h
    · simp only [firstAddr, hw, if_false] at hb
      simp only [List.eraseP_cons, hw, decide_False, cond_false, List.map_cons, List.mem_cons]
      rcases h with h | h
      · exact Or.inl h
      · exact Or.inr (mem_eraseP_addr v b h hb)

/-- C14 as amended: on a well-formed list, `ll_remove(L, v)` frees exactly one
node when some node holds `v` (one cell of the list goes from allocated to
free, every other cell keeps its allocation state) and leaves the memory
unchanged when no node holds `v`, however many nodes hold `v`; and when `L`
has at most `INT_MAX` nodes, `ll_size` of the result is `ll_size(L) - 1` in
the first case and `ll_size(L)` in the second. -/
theorem C14_remove_frees_one (fuel : Nat) (m : Mem) (head : Nat) (l : List (Nat × Int))
    (v : Int) (h : chain m head l) (hf : l.length < fuel) :
    ∃ head' m', ll_remove fuel m head v = some (head', m') ∧
      (v ∈ l.map Prod.snd →
        ∃ a, a ∈ l.map Prod.fst ∧ (m.read a).isSome = true ∧ m'.read a = none ∧
          ∀ b, b ≠ a → (m'.read b).isSome = (m.read b).isSome) ∧
      (v ∉ l.map Prod.snd → m' = m) ∧
      ((l.length : Int) ≤ INT_MAX → ∃ s, ll_size fuel m head = some s ∧
        (v ∈ l.map Prod.snd → ll_size fuel m' head' = some (s - 1)) ∧
        (v ∉ l.map Prod.snd → ll_size fuel m' head' = some s)) := by
  obtain ⟨p', m', e, hch, hfr, hsame, _⟩ := ll_remove_chain v h hf
  have hle : (l.eraseP (fun x => decide (x.2 = v))).length ≤ l.length :=
    List.length_eraseP_le _
  have hlen : (l.eraseP (fun x => decide (x.2 = v))).length < fuel :=
    Nat.lt_of_le_of_lt hle hf
  refine ⟨p', m', e, fun hv => ?_, fun hv => (hsame hv).2, fun hmax =>
    ⟨(l.length : Int), ll_size_chain h hf hmax, fun hv => ?_, fun hv => ?_⟩⟩
  · obtain ⟨p2, m2, e2, hnone⟩ := ll_remove_freed v h hf hv
    rw [e] at e2
    simp only [Option.some.injEq, Prod.mk.injEq] at e2
    obtain ⟨_, rfl⟩ := e2
    have hmem := firstAddr_mem v hv
    obtain ⟨n, hn⟩ := chain_live h _ hmem
    refine ⟨firstAddr v l, hmem, by simp [hn], hnone, fun b hb => ?_⟩
    by_cases hbl : b ∈ l.map Prod.fst
    · obtain ⟨n1, hn1⟩ := chain_live h _ hbl
      obtain ⟨n2, hn2⟩ := chain_live hch _ (mem_eraseP_addr v b hbl hb)
      simp [hn1, hn2]
    · rw [hfr b hbl]
  · rw [ll_size_chain hch hlen (by omega)]
    obtain ⟨x, hx, hxv⟩ := List.mem_map.1 hv
    have := List.length_eraseP_of_mem (p := fun x => decide (x.2 = v)) hx (by simp [hxv])
    rw [this]
    have hpos : 0 < l.length := List.length_pos_of_mem hx
    congr 1
    omega
  · obtain ⟨rfl, rfl⟩ := hsame hv
    exact ll_size_chain h hf hmax

/-- Witness of C14: removing 1, which occurs twice in 3, 1, 4, 1, 5. -/
theorem C14_remove_frees_one_witness :
    ∃ head' m', ll_remove 10 mem5 1 1 = some (head', m') ∧
      ((1 : Int) ∈ nodes5.map Prod.snd →
        ∃ a, a ∈ nodes5.map Prod.fst ∧ (mem5.read a).isSome = true ∧ m'.read a = none ∧
          ∀ b, b ≠ a → (m'.read b).isSome = (mem5.read b).isSome) ∧
      ((1 : Int) ∉ nodes5.map Prod.snd → m' = mem5) ∧
      ((nodes5.length : Int) ≤ INT_MAX → ∃ s, ll_size 10 mem5 1 = some s ∧
        ((1 : Int) ∈ nodes5.map Prod.snd → ll_size 10 m' head' = some (s - 1)) ∧
        ((1 : Int) ∉ nodes5.map Prod.snd → ll_size 10 m' head' = some s)) :=
  C14_remove_frees_one 10 mem5 1 nodes5 1 (by decide) (by decide)

/-- Counterexample to C14 as stated: on the well-formed list of `2^31` nodes,
all holding 0, `ll_size` has no defined result, whatever the fuel, while after
`ll_remove` of 0 the result has `ll_size` `INT_MAX`; so `ll_size` of the result
is not `ll_size(L) - 1`. -/
theorem C14_remove_size_counterexample :
    chain (ramp_mem 2147483648) 1 (ramp_nodes 2147483648) ∧
      (0 : Int) ∈ (ramp_nodes 2147483648).map Prod.snd ∧
      (∀ k, ll_size k (ramp_mem 2147483648) 1 = none) ∧
      ∃ head' m', ll_remove 2147483650 (ramp_mem 2147483648) 1 0 = some (head', m') ∧
        ll_size 2147483650 m' head' = some 2147483647 := by
  have hch : chain (ramp_mem 2147483648) 1 (ramp_nodes 2147483648) :=
    ramp_chain (by norm_num)
  have hlen := ramp_nodes_length 2147483648
  have hmem : (0 : Int) ∈ (ramp_nodes 2147483648).map Prod.snd := ramp_zero_mem (by norm_num)
  have hf : (ramp_nodes 2147483648).length < 2147483650 := by rw [hlen]; norm_num
  obtain ⟨p', m', e, hch', _⟩ := ll_remove_chain 0 hch hf
  obtain ⟨x, hx, hxv⟩ := List.mem_map.1 hmem
  have hlen' := List.length_eraseP_of_mem (p := fun x => decide (x.2 = (0 : Int))) hx
    (by simp [hxv])
  rw [hlen] at hlen'
  refine ⟨hch, hmem, ll_size_overflow hch (by rw [hlen]; norm_num [INT_MAX]), p', m', e, ?_⟩
  rw [ll_size_chain hch' (by rw [hlen']; norm_num) (by rw [hlen']; norm_num [INT_MAX]),
    hlen']
  rfl

/-- C15: on a non-empty well-formed list, the handle returned by
`ll_remove(L, v)` is the input handle when the first node does not hold `v`,
and the first node's successor when it does, which is `NULL` when the list had
one node; so it differs from the input only when the first node was removed. -/
theorem C15_remove_head_handle (fuel : Nat) (m : Mem) (head : Nat) (l : List (Nat × Int))
    (v : Int) (h : chain m head l) (hp : head ≠ 0) (hf : l.length < fuel) :
    ∃ n head' m', m.read head = some n ∧ ll_remove fuel m head v = some (head', m') ∧
      (n.data ≠ v → head' = head) ∧ (n.data = v → head' = n.next) ∧
      (n.data = v → l.length = 1 → head' = 0) ∧ (head' ≠ head → n.data = v) := by
  obtain ⟨p', m', e, hch, _⟩ := ll_remove_chain v h hf
  cases l with
  | nil => exact absurd (chain_nil.1 h) hp
  | cons x rest =>
    obtain ⟨a, w⟩ := x
    obtain ⟨_, ha, nx, hr, hc⟩ := chain_cons.1 h
    subst ha
    have hne : w ≠ v → p' = a := by
      intro hw
      simp only [List.eraseP_cons, hw, decide_False, cond_false] at hch
      exact ((chain_cons.1 hch).2.1).symm
    have heq : w = v → p' = nx := by
      intro hw
      simp only [List.eraseP_cons, hw, decide_True, cond_true] at hch
      exact (chain_head_eq hc hch).symm
    refine ⟨⟨w, nx⟩, p', m', hr, e, hne, heq, ?_, ?_⟩
    · intro hw hlen
      have hrest : rest = [] := by
        simp only [List.length_cons, Nat.add_left_eq_self] at hlen
        exact List.length_eq_zero.1 hlen
      subst hrest
      rw [heq hw]
      exact chain_nil.1 hc
    · intro hd
      by_contra hw
      exact hd (hne hw)

/-- Witness of C15: removing the head value 3 from 3, 1, 4, 1, 5. -/
theorem C15_remove_head_handle_witness :
    ∃ n head' m', mem5.read 1 = some n ∧ ll_remove 10 mem5 1 3 = some (head', m') ∧
      (n.data ≠ 3 → head' = 1) ∧ (n.data = 3 → head' = n.next) ∧
      (n.data = 3 → nodes5.length = 1 → head' = 0) ∧ (head' ≠ 1 → n.data = 3) :=
  C15_remove_head_handle 10 mem5 1 nodes5 3 (by decide) (by decide) (by decide)

/-- C16: `ll_create(v)` returns `NULL` exactly when the allocation fails, and
then changes no cell; otherwise it returns a cell that was free before the call
and now holds the value `v` and no successor, whatever junk `malloc` left in
it, so the result is a well-formed one-node list with traversal order `[v]`
and `ll_size` 1; no other cell is changed. -/
theorem C16_create_node (fuel : Nat) (m : Mem) (v : Int) (hf : 1 < fuel) :
    ∃ r m', ll_create m v = some (r, m') ∧ (r = 0 ↔ succeeds m.allocs 1 = false) ∧
      (r = 0 → m'.cells = m.cells) ∧
      (r ≠ 0 → m.read r = none ∧ m'.read r = some ⟨v, 0⟩ ∧ chain m' r [(r, v)] ∧
        ll_size fuel m' r = some 1 ∧ ∀ q, q ≠ r → m'.read q = m.read q) := by
  cases hs : succeeds m.allocs 1 with
  | false =>
    obtain ⟨m1, e1, hc, _⟩ := ll_create_fail v hs
    exact ⟨0, m1, e1, by simp, fun _ => hc, fun hne => absurd rfl hne⟩
  | true =>
    obtain ⟨j, rest, ha⟩ := succeeds_one hs
    obtain ⟨m1, e1, r1, f1, _⟩ := ll_create_ok v ha
    have hq0 : m.cells.length + 1 ≠ 0 := Nat.succ_ne_zero _
    have hch : chain m1 (m.cells.length + 1) [(m.cells.length + 1, v)] :=
      chain_cons.2 ⟨hq0, rfl, 0, r1, chain_nil.2 rfl⟩
    refine ⟨m.cells.length + 1, m1, e1, by simp, fun h0 => absurd h0 hq0, fun _ =>
      ⟨read_fresh m, r1, hch, ?_, f1⟩⟩
    rw [ll_size_chain hch (by simpa using hf) (by simp [INT_MAX])]
    rfl

/-- Witness of C16: creating a node holding 7 on the five-node heap. -/
theorem C16_create_node_witness :
    ∃ r m', ll_create mem5 7 = some (r, m') ∧ (r = 0 ↔ succeeds mem5.allocs 1 = false) ∧
      (r = 0 → m'.cells = mem5.cells) ∧
      (r ≠ 0 → mem5.read r = none ∧ m'.read r = some ⟨7, 0⟩ ∧ chain m' r [(r, 7)] ∧
        ll_size 5 m' r = some 1 ∧ ∀ q, q ≠ r → m'.read q = mem5.read q) :=
  C16_create_node 5 mem5 7 (by decide)

/-! ## Well-formedness is preserved -/

theorem wellFormed_of_chain {m : Mem} {p : Nat} {l : List (Nat × Int)} (h : chain m p l) :
    WellFormed m p :=
  ⟨l, h, chain_nodup h⟩

theorem ll_create_wellFormed (m : Mem) (d : Int) :
    ∃ r m', ll_create m d = some (r, m') ∧ WellFormed m' r := by
  cases hs : succeeds m.allocs 1 with
  | false =>
    obtain ⟨m1, e1, _⟩ := ll_create_fail d hs
    exact ⟨0, m1, e1, wellFormed_of_chain (chain_nil.2 rfl)⟩
  | true =>
    obtain ⟨j, rest, ha⟩ := succeeds_one hs
    obtain ⟨m1, e1, r1, _⟩ := ll_create_ok d ha
    exact ⟨_, m1, e1, wellFormed_of_chain
      (chain_cons.2 ⟨Nat.succ_ne_zero _, rfl, 0, r1, chain_nil.2 rfl⟩)⟩

theorem ll_fromarray_wellFormed (fuel : Nat) (m : Mem) (data : Option (List Int)) (len : Int)
    (hlen : ∀ A, data = some A → len ≤ (A.length : Int)) (hfuel : len < (fuel : Int)) :
    ∃ r m', ll_fromarray fuel m data len = some (r, m') ∧ WellFormed m' r := by
  by_cases hpos : len ≤ 0
  · refine ⟨0, m, ?_, wellFormed_of_chain (chain_nil.2 rfl)⟩
    cases data with
    | none => rfl
    | some a => simp [ll_fromarray, hpos]
  · cases data with
    | none => exact ⟨0, m, rfl, wellFormed_of_chain (chain_nil.2 rfl)⟩
    | some A =>
      obtain ⟨n, rfl⟩ := Int.eq_ofNat_of_zero_le (le_of_lt (not_le.1 hpos))
      have hA := hlen A rfl
      obtain ⟨r, m', e, hok, hbad⟩ :=
        ll_fromarray_chain (m := m) (A := A) (n := n) (by omega) (by omega)
          (Int.ofNat_lt.1 hfuel)
      refine ⟨r, m', e, ?_⟩
      cases hs : succeeds m.allocs n with
      | false =>
        rw [(hbad hs).1]
        exact wellFormed_of_chain (chain_nil.2 rfl)
      | true =>
        obtain ⟨_, l, hch, _⟩ := hok hs
        exact wellFormed_of_chain hch

theorem ll_append_wellFormed {m : Mem} {head fuel : Nat} {l : List (Nat × Int)} (v : Int)
    (h : chain m head l) (hf : l.length < fuel) :
    ∃ m', ll_append fuel m head v = some m' ∧ WellFormed m' head := by
  by_cases hp : head = 0
  · exact ⟨m, by simp [ll_append, hp], wellFormed_of_chain h⟩
  · cases hs : succeeds m.allocs 1 with
    | false =>
      obtain ⟨m1, e1, hc, _⟩ := @ll_append_fail m head fuel v hp hs
      exact ⟨m1, e1, wellFormed_of_chain (chain_cells hc h)⟩
    | true =>
      obtain ⟨j, rest, ha⟩ := succeeds_one hs
      obtain ⟨m1, e1, hch, _⟩ := ll_append_chain v h hp hf ha
      exact ⟨m1, e1, wellFormed_of_chain hch⟩

/-- C17: well-formedness (the links from the head reach `NULL` after finitely
many nodes, none of which occurs twice) is kept by the list operations, for
every pattern of allocation outcomes: `ll_create` and `ll_fromarray` return
well-formed lists, and `ll_append` and `ll_remove` applied to a well-formed
list leave a well-formed list. -/
theorem C17_wellformed_invariant (fuel : Nat) (m : Mem) (head : Nat) (v : Int)
    (hwf : WellFormed m head) (hfuel : ∀ l, chain m head l → l.length < fuel) :
    (∀ d, ∃ r m', ll_create m d = some (r, m') ∧ WellFormed m' r) ∧
      (∀ (data : Option (List Int)) (len : Int),
        (∀ A, data = some A → len ≤ (A.length : Int)) → len < (fuel : Int) →
        ∃ r m', ll_fromarray fuel m data len = some (r, m') ∧ WellFormed m' r) ∧
      (∃ m', ll_append fuel m head v = some m' ∧ WellFormed m' head) ∧
      (∃ head' m', ll_remove fuel m head v = some (head', m') ∧ WellFormed m' head') := by
  obtain ⟨l, h, _⟩ := hwf
  have hf := hfuel l h
  refine ⟨ll_create_wellFormed m, ll_fromarray_wellFormed fuel m,
    ll_append_wellFormed v h hf, ?_⟩
  obtain ⟨p', m', e, hch, _⟩ := ll_remove_chain v h hf
  exact ⟨p', m', e, wellFormed_of_chain hch⟩

/-- Witness of C17: the operations on the list 3, 1, 4, 1, 5. -/
theorem C17_wellformed_invariant_witness :
    (∀ d, ∃ r m', ll_create mem5 d = some (r, m') ∧ WellFormed m' r) ∧
      (∀ (data : Option (List Int)) (len : Int),
        (∀ A, data = some A → len ≤ (A.length : Int)) → len < ((10 : Nat) : Int) →
        ∃ r m', ll_fromarray 10 mem5 data len = some (r, m') ∧ WellFormed m' r) ∧
      (∃ m', ll_append 10 mem5 1 1 = some m' ∧ WellFormed m' 1) ∧
      (∃ head' m', ll_remove 10 mem5 1 1 = some (head', m') ∧ WellFormed m' head') :=
  C17_wellformed_invariant 10 mem5 1 1 ⟨nodes5, by decide, by decide⟩
    (fun l hl => by
      have h5 : chain mem5 1 nodes5 := by decide
      rw [chain_det hl h5]
      decide)

/-! ## Building by repeated appending -/

theorem append_all_chain (fuel head : Nat) (hp : head ≠ 0) :
    ∀ (ds : List Int) (m : Mem) (l : List (Nat × Int)), chain m head l →
    l.length + ds.length < fuel → succeeds m.allocs ds.length = true →
    ∃ m' l', append_all fuel head ds m = some m' ∧ chain m' head l' ∧
      l'.map Prod.snd = l.map Prod.snd ++ ds
  | [], m, l, h, _, _ => ⟨m, l, rfl, h, by simp⟩
  | d :: ds, m, l, h, hf, hs => by
    simp only [List.length_cons] at hf hs
    rcases succeeds_succ_cases m.allocs ds.length with ⟨j, rest, hal, hs'⟩ | ⟨_, hs'⟩
    · have hf' : l.length < fuel := by omega
      obtain ⟨m1, e1, hch, _, a1, _⟩ := ll_append_chain d h hp hf' hal
      rw [hs', ← a1] at hs
      obtain ⟨m', l', e, hch', hvals⟩ :=
        append_all_chain fuel head hp ds m1 _ hch (by simp; omega) hs
      refine ⟨m', l', by simp [append_all, e1, e], hch', ?_⟩
      rw [hvals]
      simp
    · rw [hs'] at hs; cases hs

/-- C18: for `1 ≤ n ≤ |A|`, when the `n` allocations succeed, the list built
by `ll_fromarray(A, n)`, which keeps track of the tail itself, and the list
built by `ll_create(A[0])` followed by `ll_append` of `A[1]`, ..., `A[n-1]`,
which finds the tail again by a full traversal each time, are both well-formed
and have the same traversal order, `A[0], ..., A[n-1]`. -/
theorem C18_fromarray_refines_append (fuel : Nat) (m : Mem) (A : List Int) (n : Nat)
    (h1 : 1 ≤ n) (hn : n ≤ A.length) (hfuel : n < fuel)
    (hal : succeeds m.allocs n = true) :
    ∃ p1 m1 l1 p2 m2 l2, ll_fromarray fuel m (some A) (n : Int) = some (p1, m1) ∧
      chain m1 p1 l1 ∧ create_then_append fuel m A n = some (p2, m2) ∧ chain m2 p2 l2 ∧
      l1.map Prod.snd = l2.map Prod.snd ∧ l2.map Prod.snd = A.take n := by
  obtain ⟨r, m1, e, hok, _⟩ := ll_fromarray_chain (m := m) h1 hn hfuel
  obtain ⟨_, l1, hch1, _, hvals1, _⟩ := hok hal
  obtain ⟨t, rfl⟩ : ∃ t, n = t + 1 := ⟨n - 1, by omega⟩
  have h0 : 0 < A.length := by omega
  have htake : A.take (t + 1) = A[0] :: (A.drop 1).take t := by
    rw [← List.take_succ_cons, ← List.drop_eq_getElem_cons h0]
    rfl
  have hlen : ((A.drop 1).take t).length = t := by
    simp only [List.length_take, List.length_drop]
    omega
  rcases succeeds_succ_cases m.allocs t with ⟨j, rest, ha, hs⟩ | ⟨_, hs⟩
  · obtain ⟨mc, ec, rc, _, ac, _⟩ := ll_create_ok A[0] ha
    have hq0 : m.cells.length + 1 ≠ 0 := Nat.succ_ne_zero _
    have hc : chain mc (m.cells.length + 1) [(m.cells.length + 1, A[0])] :=
      chain_cons.2 ⟨hq0, rfl, 0, rc, chain_nil.2 rfl⟩
    rw [hs, ← ac, ← hlen] at hal
    obtain ⟨m2, l2, e2, hch2, hvals2⟩ :=
      append_all_chain fuel (m.cells.length + 1) hq0 ((A.drop 1).take t) mc _ hc
        (by rw [hlen]; simp; omega) hal
    refine ⟨r, m1, l1, m.cells.length + 1, m2, l2, e, hch1, ?_, hch2, ?_, ?_⟩
    · simp only [create_then_append, htake, ec, e2]
    · rw [hvals1, hvals2, htake]; rfl
    · rw [hvals2, htake]; rfl
  · rw [hs] at hal; cases hal

/-- Witness of C18: the array 3, 1, 4, 1, 5 built both ways on an empty heap. -/
theorem C18_fromarray_refines_append_witness :
    ∃ p1 m1 l1 p2 m2 l2,
      ll_fromarray 10 mem0 (some [3, 1, 4, 1, 5]) ((5 : Nat) : Int) = some (p1, m1) ∧
      chain m1 p1 l1 ∧ create_then_append 10 mem0 [3, 1, 4, 1, 5] 5 = some (p2, m2) ∧
      chain m2 p2 l2 ∧
      l1.map Prod.snd = l2.map Prod.snd ∧ l2.map Prod.snd = [3, 1, 4, 1, 5].take 5 :=
  C18_fromarray_refines_append 10 mem0 [3, 1, 4, 1, 5] 5 (by decide) (by decide) (by decide)
    (by decide)

/-- C19 as amended: on a non-empty well-formed list `L` of at most `INT_MAX`
nodes, when the array allocation and the node allocations succeed,
`ll_fromarray(ll_toarray(L), ll_size(L))` returns a well-formed list with the
traversal order and the `ll_size` of `L`, none of whose nodes is a node of
`L`; the list `L` itself is still in place. -/
theorem C19_array_round_trip (fuel : Nat) (m : Mem) (head : Nat) (l : List (Nat × Int))
    (h : chain m head l) (hp : head ≠ 0) (hf : l.length < fuel)
    (hmax : (l.length : Int) ≤ INT_MAX)
    (hal : succeeds m.allocs (l.length + 1) = true) :
    ∃ s arr m1 head2 m2 l2, ll_size fuel m head = some s ∧
      ll_toarray fuel m head = some (some arr, m1) ∧
      ll_fromarray fuel m1 (some arr) s = some (head2, m2) ∧ head2 ≠ 0 ∧
      chain m2 head2 l2 ∧ l2.map Prod.snd = l.map Prod.snd ∧
      ll_size fuel m2 head2 = some s ∧
      (∀ a, a ∈ l2.map Prod.fst → a ∉ l.map Prod.fst) ∧ chain m2 head l := by
  have hl : l ≠ [] := chain_ne_nil h hp
  have hpos : 0 < l.length := List.length_pos.2 hl
  rcases succeeds_succ_cases m.allocs l.length with ⟨j, rest, ha, hs⟩ | ⟨_, hs⟩
  · rw [hs] at hal
    have hm1 : chain { m with allocs := rest, calls := m.calls + 1 } head l :=
      chain_cells (m := m) rfl h
    obtain ⟨r, m2, e, hok, _⟩ :=
      @ll_fromarray_chain fuel { m with allocs := rest, calls := m.calls + 1 }
        (l.map Prod.snd) l.length hpos (by simp) hf
    obtain ⟨hr, l2, hch2, hlen2, hvals2, hfr, hnew, _⟩ := hok hal
    have hdisj : ∀ a, a ∈ l2.map Prod.fst → a ∉ l.map Prod.fst := by
      intro a ha2 ha1
      obtain ⟨n1, hn1⟩ := chain_live hm1 _ ha1
      rw [hnew a ha2] at hn1
      cases hn1
    refine ⟨(l.length : Int), l.map Prod.snd, _, r, m2, l2, ll_size_chain h hf hmax,
      ll_toarray_chain h hp hf hmax ha, e, hr, hch2, ?_, ?_, hdisj, ?_⟩
    · rw [hvals2]
      exact List.take_of_length_le (by simp)
    · rw [ll_size_chain hch2 (by omega) (by rw [hlen2]; exact hmax), hlen2]
    · refine chain_congr (fun a ha1 => hfr a (fun ha2 => hdisj a ha2 ha1)) hm1
  · rw [hs] at hal; cases hal

/-- Witness of C19: the list 3, 1, 4, 1, 5 copied through an array. -/
theorem C19_array_round_trip_witness :
    ∃ s arr m1 head2 m2 l2, ll_size 10 mem5rich 1 = some s ∧
      ll_toarray 10 mem5rich 1 = some (some arr, m1) ∧
      ll_fromarray 10 m1 (some arr) s = some (head2, m2) ∧ head2 ≠ 0 ∧
      chain m2 head2 l2 ∧ l2.map Prod.snd = nodes5.map Prod.snd ∧
      ll_size 10 m2 head2 = some s ∧
      (∀ a, a ∈ l2.map Prod.fst → a ∉ nodes5.map Prod.fst) ∧ chain m2 1 nodes5 :=
  C19_array_round_trip 10 mem5rich 1 nodes5 (by decide)
    (by decide) (by decide) (by decide) (by decide)

/-- Counterexample to C19 as stated: on the well-formed list of `2^32 + 1`
nodes, with all allocations succeeding, neither argument of the round trip is
defined: the `int` counter of `ll_size` overflows, in `ll_size(L)` and inside
`ll_toarray(L)`, whatever the fuel; so no list with the traversal order of `L`
is returned. -/
theorem C19_round_trip_counterexample :
    chain (ramp_mem 4294967297) 1 (ramp_nodes 4294967297) ∧
      succeeds (ramp_mem 4294967297).allocs ((ramp_nodes 4294967297).length + 1) = true ∧
      ∀ k, ll_size k (ramp_mem 4294967297) 1 = none ∧
        ll_toarray k (ramp_mem 4294967297) 1 = none := by
  have hch : chain (ramp_mem 4294967297) 1 (ramp_nodes 4294967297) :=
    ramp_chain (by norm_num)
  have hbig : INT_MAX < ((ramp_nodes 4294967297).length : Int) := by
    rw [ramp_nodes_length]
    norm_num [INT_MAX]
  refine ⟨hch, ramp_succeeds (by rw [ramp_nodes_length]), fun k =>
    ⟨ll_size_overflow hch hbig k, ll_toarray_overflow hch hbig k⟩⟩

/-- C20: on a non-empty well-formed list none of whose nodes holds `v`, when
the allocation succeeds, `ll_append(L, v)` followed by `ll_remove(L, v)`
returns the original head handle and leaves a well-formed list with the
original nodes and traversal order, on which `ll_size` gives the same result
as before (the number of nodes, when that is at most `INT_MAX`). -/
theorem C20_remove_undoes_append (fuel : Nat) (m : Mem) (head : Nat) (l : List (Nat × Int))
    (v : Int) (h : chain m head l) (hp : head ≠ 0) (hf : l.length + 1 < fuel)
    (hv : v ∉ l.map Prod.snd) (hal : succeeds m.allocs 1 = true) :
    ∃ m1 head' m2, ll_append fuel m head v = some m1 ∧
      ll_remove fuel m1 head v = some (head', m2) ∧ head' = head ∧ chain m2 head l ∧
      ll_size fuel m2 head = ll_size fuel m head ∧
      ((l.length : Int) ≤ INT_MAX → ll_size fuel m head = some (l.length : Int)) := by
  have hf' : l.length < fuel := by omega
  have hl : l ≠ [] := chain_ne_nil h hp
  obtain ⟨j, rest, ha⟩ := succeeds_one hal
  obtain ⟨m1, e1, hch1, _⟩ := ll_append_chain v h hp hf' ha
  obtain ⟨p', m2, e2, hch2, _⟩ :=
    ll_remove_chain v hch1 (by simpa using hf)
  have herase : (l ++ [(m.cells.length + 1, v)]).eraseP (fun x => decide (x.2 = v)) = l := by
    rw [List.eraseP_append_right]
    · simp
    · intro x hx hxv
      exact hv (List.mem_map.2 ⟨x, hx, by simpa using hxv⟩)
  rw [herase] at hch2
  have hhead : p' = head := chain_head_eq hch2 h
  subst hhead
  exact ⟨m1, p', m2, e1, e2, rfl, hch2, ll_size_congr hch2 h fuel,
    fun hmax => ll_size_chain h hf' hmax⟩

/-- Witness of C20: appending 9 to 3, 1, 4, 1, 5 and removing it again. -/
theorem C20_remove_undoes_append_witness :
    ∃ m1 head' m2, ll_append 10 mem5 1 9 = some m1 ∧
      ll_remove 10 m1 1 9 = some (head', m2) ∧ head' = 1 ∧ chain m2 1 nodes5 ∧
      ll_size 10 m2 1 = ll_size 10 mem5 1 ∧
      ((nodes5.length : Int) ≤ INT_MAX → ll_size 10 mem5 1 = some (nodes5.length : Int)) :=
  C20_remove_undoes_append 10 mem5 1 nodes5 9 (by decide) (by decide) (by decide)
    (by decide) (by decide)

end LL
